/-
  Verification development for Cue2ID3 (src/Cue2ID3.py).

  The Python program parses a CUE sheet into (title, start-time-ms) chapter
  seeds, plans chapter frames (CHAP) plus one table-of-contents frame (CTOC),
  replaces any existing CHAP/CTOC frames in the MP3's ID3 tag container, and
  persists the container with a backup/rollback discipline; the orchestration
  layer deletes the backup and the CUE file only after success.

  This file shallowly embeds those parts:
  * strings are handled at the `List Char` level with hand-rolled primitives
    mirroring the Python string methods used by the source (`strip`, `upper`,
    `startswith`, `in`, `split`, `split(sep)`, `int(...)`);
  * Python float arithmetic is modelled exactly: an IEEE-754 binary64 value is
    a rational, and every arithmetic step rounds the exact rational result to
    the nearest representable value (ties to even), which is what IEEE basic
    operations do; the model assumes results stay in the finite normal range,
    which holds for all quantities this program computes;
  * the filesystem is an association list from paths to file contents, and the
    two fallible operations surrounding it (backup creation and tag
    serialization) are driven by an explicit failure oracle, mirroring the
    `try/except` structure of the source.
-/
import Mathlib

set_option maxRecDepth 40000

namespace Cue2ID3

/-! ### Character-list string primitives (models of Python's `str` methods) -/

/-- Model of Python `str.startswith`: `startsL pat l` is true when `pat` is a
prefix of `l`. -/
def startsL : List Char → List Char → Bool
  | [], _ => true
  | _ :: _, [] => false
  | p :: ps, c :: cs => p = c && startsL ps cs

/-- Model of Python's substring test `pat in l`. -/
def containsL (pat : List Char) : List Char → Bool
  | [] => startsL pat []
  | c :: cs => startsL pat (c :: cs) || containsL pat cs

/-- Model of Python `str.strip()` (whitespace at both ends removed). -/
def trimL (l : List Char) : List Char :=
  ((l.dropWhile Char.isWhitespace).reverse.dropWhile Char.isWhitespace).reverse

/-- Model of Python `str.upper()` on the ASCII range. -/
def upperL (l : List Char) : List Char := l.map Char.toUpper

/-- Model of Python `str.split(sep)` for a single-character separator:
splits at every occurrence, keeping empty pieces. Never returns `[]`. -/
def splitOnChar (sep : Char) : List Char → List (List Char)
  | [] => [[]]
  | c :: cs =>
    match splitOnChar sep cs with
    | [] => [[c]]
    | h :: t => if c = sep then [] :: h :: t else (c :: h) :: t

/-- Like `splitOnChar` but splitting at every character satisfying `p`. -/
def splitWhen (p : Char → Bool) : List Char → List (List Char)
  | [] => [[]]
  | c :: cs =>
    match splitWhen p cs with
    | [] => [[c]]
    | h :: t => if p c then [] :: h :: t else (c :: h) :: t

/-- Model of Python `str.split()` with no argument: split on whitespace runs,
discarding empty pieces. -/
def pySplitWs (l : List Char) : List (List Char) :=
  (splitWhen Char.isWhitespace l).filter (fun w => ¬ w = [])

/-- Numeric value of the decimal digits `l`, accumulated onto `acc`; `none`
when a non-digit appears. -/
def digitsAux (acc : Nat) : List Char → Option Nat
  | [] => some acc
  | c :: cs => if c.isDigit then digitsAux (acc * 10 + (c.toNat - 48)) cs else none

/-- Model of Python `int(str)` on the forms this program can meet: optional
surrounding whitespace, an optional sign, then decimal digits. (Python also
accepts `_` digit separators and non-ASCII digits; those never arise in CUE
timecodes and are treated as malformed here.) -/
def pyIntChars (l : List Char) : Option Int :=
  match trimL l with
  | '-' :: ds =>
    match ds with
    | [] => none
    | _ => (digitsAux 0 ds).map (fun n => -(n : Int))
  | '+' :: ds =>
    match ds with
    | [] => none
    | _ => (digitsAux 0 ds).map (fun n => (n : Int))
  | [] => none
  | ds => (digitsAux 0 ds).map (fun n => (n : Int))

/-! ### Exact model of Python float (IEEE-754 binary64) arithmetic

A binary64 value is represented exactly as `mant * 2 ^ e` with integer
mantissa and exponent. Each Python float operation returns the exact result
rounded to 53 significant bits, round-to-nearest with ties to even — exactly
what IEEE-754 basic operations do. The model assumes results stay in the
finite range and does not lose precision to subnormals; every quantity this
program computes satisfies that. -/

/-- A binary64 value `mant * 2 ^ e`, exactly. -/
structure Dbl where
  mant : ℤ
  e : ℤ
deriving DecidableEq

/-- `2 ^ k` as an integer, by structural recursion (kernel-reducible). -/
def pow2 : Nat → ℤ
  | 0 => 1
  | k + 1 => 2 * pow2 k

/-- `2 ^ 52`, the lower bound of the scaled-mantissa interval. -/
def mantLo : ℤ := 4503599627370496

/-- `2 ^ 53`, the upper bound of the scaled-mantissa interval. -/
def mantHi : ℤ := 9007199254740992

/-- Grow the denominator until `a / b < 2 ^ 53`, counting doublings in the
exponent (the value `(a / b) * 2 ^ e` is preserved). Fuel-bounded structural
recursion; fuel 5000 covers the whole binary64 exponent range. -/
def scaleDown : Nat → ℤ → ℤ → ℤ → ℤ × ℤ × ℤ
  | 0, a, b, e => (a, b, e)
  | fuel + 1, a, b, e =>
    if mantHi * b ≤ a then scaleDown fuel a (b * 2) (e + 1) else (a, b, e)

/-- Grow the numerator until `2 ^ 52 ≤ a / b`, counting doublings in the
exponent (the value `(a / b) * 2 ^ e` is preserved). -/
def scaleUp : Nat → ℤ → ℤ → ℤ → ℤ × ℤ × ℤ
  | 0, a, b, e => (a, b, e)
  | fuel + 1, a, b, e =>
    if a < mantLo * b then scaleUp fuel (a * 2) b (e - 1) else (a, b, e)

/-- Round the positive rational `a / b` (`a, b > 0`) to the nearest binary64
value, ties to even: scale the fraction into `[2^52, 2^53)`, then round it to
an integer mantissa. -/
def roundPosRat (a b : ℤ) : Dbl :=
  match scaleDown 5000 a b 0 with
  | (a1, b1, e1) =>
    match scaleUp 5000 a1 b1 e1 with
    | (a2, b2, e2) =>
      let fl : ℤ := Int.ediv a2 b2
      let r : ℤ := Int.emod a2 b2
      let n : ℤ :=
        if 2 * r < b2 then fl
        else if b2 < 2 * r then fl + 1
        else if Int.emod fl 2 = 0 then fl else fl + 1
      ⟨n, e2⟩

/-- Round the rational `a / b` (`b > 0`) to the nearest binary64 value. -/
def dblOfRat (a b : ℤ) : Dbl :=
  if a = 0 then ⟨0, 0⟩
  else if a < 0 then
    match roundPosRat (-a) b with
    | ⟨n, e⟩ => ⟨-n, e⟩
  else roundPosRat a b

/-- Model of Python's int-to-float conversion (rounds above `2 ^ 53`). -/
def dblOfInt (n : ℤ) : Dbl := dblOfRat n 1

/-- Model of Python float addition: exact sum, rounded. -/
def dblAdd (d1 d2 : Dbl) : Dbl :=
  let emin := if d1.e ≤ d2.e then d1.e else d2.e
  let a := d1.mant * pow2 (d1.e - emin).toNat + d2.mant * pow2 (d2.e - emin).toNat
  match dblOfRat a 1 with
  | ⟨n, e⟩ => ⟨n, e + emin⟩

/-- Model of Python float-times-int multiplication: exact product, rounded. -/
def dblMulInt (d : Dbl) (k : ℤ) : Dbl :=
  match dblOfRat (d.mant * k) 1 with
  | ⟨n, e⟩ => ⟨n, e + d.e⟩

/-- Model of Python `int(x)` on a float: truncate toward zero. -/
def dblTrunc (d : Dbl) : ℤ :=
  if 0 ≤ d.e then d.mant * pow2 d.e.toNat
  else
    let p := pow2 (-d.e).toNat
    if 0 ≤ d.mant then Int.ediv d.mant p else -Int.ediv (-d.mant) p

/-- Model of `int((m * 60 + s + f / 75.0) * 1000)` from `parse_cue_file`
(src/Cue2ID3.py line 62), with each float operation rounding exactly as
IEEE-754 binary64 does: `f / 75.0` divides, the exact integer `m * 60 + s` is
converted to float and added, the sum is multiplied by `1000`, and the result
is truncated toward zero. -/
def cueTimeToMs (m s f : Int) : Int :=
  let d1 := dblOfRat f 75
  let d2 := dblAdd (dblOfInt (m * 60 + s)) d1
  let d3 := dblMulInt d2 1000
  dblTrunc d3

/-! ### The CUE parser (`parse_cue_file`, src/Cue2ID3.py lines 34–67)

The file is modelled as the list of its lines. The parser state carries the
accumulated chapters and the current block's pending title and time; a line is
processed exactly as in the source: `TRACK` flushes and resets, `TITLE`
extracts the first quoted segment, a line containing `INDEX 01` parses the
trailing whitespace-delimited token as `mm:ss:ff` (a malformed token leaves
the state untouched, matching the `except` branch that only logs). -/

/-- Model of the `try` body of the `INDEX 01` branch (lines 55–62):
`parts = line.split(); time_str = parts[-1]; m, s, f = time_str.split(":")`
followed by the three `int` conversions and the float conversion. `none`
models any exception caught by the `except` branch (line 63). -/
def parseTimeToken (line : List Char) : Option Int :=
  match (pySplitWs line).getLast? with
  | none => none
  | some timeStr =>
    match splitOnChar ':' timeStr with
    | [a, b, c] =>
      match pyIntChars a, pyIntChars b, pyIntChars c with
      | some m, some s, some f => some (cueTimeToMs m s f)
      | _, _, _ => none
    | _ => none

/-- Parser accumulator: `chapters`, `current_title`, `current_time`
(lines 39–41). -/
structure ParseState where
  chapters : List (String × Int)
  current_title : Option String
  current_time : Option Int
deriving DecidableEq

/-- Flush the pending block: append `(current_title, current_time)` to
`chapters` when both are set (the guard at lines 47–48 and 65–66). -/
def flushPending (st : ParseState) : List (String × Int) :=
  match st.current_title, st.current_time with
  | some t, some ms => st.chapters ++ [(t, ms)]
  | _, _ => st.chapters

/-- Process one line of the CUE file (the loop body, lines 44–64). -/
def stepLine (st : ParseState) (rawLine : String) : ParseState :=
  let line := trimL rawLine.data
  if startsL "TRACK".data (upperL line) then
    ⟨flushPending st, none, none⟩
  else if startsL "TITLE".data (upperL line) then
    if containsL "\"".data line then
      match splitOnChar '"' line with
      | _ :: x :: _ => { st with current_title := some ⟨x⟩ }
      | _ => st
    else st
  else if containsL "INDEX 01".data (upperL line) then
    match parseTimeToken line with
    | some ms => { st with current_time := some ms }
    | none => st
  else st

/-- Model of `parse_cue_file`: fold the loop body over the lines, then flush
the final pending block (lines 65–66). -/
def parseLines (lines : List String) : List (String × Int) :=
  flushPending (lines.foldl stepLine ⟨[], none, none⟩)

/-! ### ID3 frames and the in-memory part of `embed_chapters`
(src/Cue2ID3.py lines 75–119) -/

/-- Decimal digit characters of `n`, most significant first, prepended to
`acc`; models Python's decimal rendering of a nonnegative int. Structural
recursion on a fuel bound (any `fuel ≥ n` gives the same result, see
`natCharsAux_fuel`), keeping the definition kernel-reducible. -/
def natCharsAux : Nat → Nat → List Char → List Char
  | 0, n, acc => Nat.digitChar n :: acc
  | fuel + 1, n, acc =>
    if n < 10 then Nat.digitChar n :: acc
    else natCharsAux fuel (n / 10) (Nat.digitChar (n % 10) :: acc)

/-- Decimal digit characters of `n`, most significant first. -/
def natChars (n : Nat) : List Char := natCharsAux n n []

/-- Model of the Python format specifier `{n:02d}` for nonnegative `n`:
decimal digits, left-padded with `0` to width at least 2. -/
def pad2 (n : Nat) : List Char :=
  if n < 10 then '0' :: natChars n else natChars n

/-- The chapter element id `f"chp{idx+1:02d}"` (lines 90 and 104), for the
1-based chapter number `n`. -/
def chapId (n : Nat) : String := ⟨'c' :: 'h' :: 'p' :: pad2 n⟩

/-- A `TIT2` sub-frame: text encoding plus text list (mutagen wraps a single
string into a one-element list). -/
structure TIT2Frame where
  encoding : Nat
  text : List String
deriving DecidableEq

/-- A `CHAP` frame as constructed at lines 110–117. -/
structure CHAPFrame where
  element_id : String
  start_time : Int
  end_time : Int
  start_offset : Int
  end_offset : Int
  sub_frames : List TIT2Frame
deriving DecidableEq

/-- A `CTOC` frame as constructed at lines 93–98. -/
structure CTOCFrame where
  element_id : String
  flags : Nat
  child_element_ids : List String
  sub_frames : List TIT2Frame
deriving DecidableEq

/-- `mutagen.id3.CTOCFlags.TOP_LEVEL`. -/
def CTOCFlags_TOP_LEVEL : Nat := 2

/-- `mutagen.id3.CTOCFlags.ORDERED`. -/
def CTOCFlags_ORDERED : Nat := 1

/-- A frame stored in the tag container: the two kinds this program writes,
plus opaque other frames (title, artist, … — only their keys matter here). -/
inductive Frame where
  | chap (c : CHAPFrame)
  | ctoc (c : CTOCFrame)
  | other (raw : String)
deriving DecidableEq

/-- The dictionary key under which mutagen stores a frame (its `HashKey`):
`CHAP`/`CTOC` frames are keyed by frame id plus `:` plus element id. -/
def frameKey : Frame → String
  | .chap c => "CHAP:" ++ c.element_id
  | .ctoc c => "CTOC:" ++ c.element_id
  | .other raw => raw

/-- The tag container, modelled as mutagen's insertion-ordered dictionary:
an association list from keys to frames. -/
abbrev TagContainer : Type := List (String × Frame)

/-- `del tags[key]` for every key starting with `CHAP` or `CTOC`
(lines 81–83). -/
def removeChapCtoc (tags : TagContainer) : TagContainer :=
  List.filter
    (fun kv => ¬ (startsL "CHAP".data kv.1.data || startsL "CTOC".data kv.1.data))
    tags

/-- `tags.add(frame)`: store under the frame's key, replacing an existing
entry in place, else appending. -/
def tagsAdd (tags : TagContainer) (fr : Frame) : TagContainer :=
  if tags.any (fun kv => kv.1 = frameKey fr) then
    tags.map (fun kv => if kv.1 = frameKey fr then (frameKey fr, fr) else kv)
  else tags ++ [(frameKey fr, fr)]

/-- The `child_ids` list built at lines 88–91. -/
def childIds (chapters : List (String × Int)) : List String :=
  (List.range chapters.length).map (fun idx => chapId (idx + 1))

/-- The `CTOC` frame built at lines 93–98. -/
def buildCTOC (chapters : List (String × Int)) : CTOCFrame :=
  { element_id := "toc"
    flags := CTOCFlags_TOP_LEVEL ||| CTOCFlags_ORDERED
    child_element_ids := childIds chapters
    sub_frames := [⟨3, ["I\x27m a TOC"]⟩] }

/-- The end time chosen at lines 105–108: the next chapter's start when one
exists, else the total duration. -/
def nextEnd (rest : List (String × Int)) (total : Int) : Int :=
  match rest with
  | (_, nextStart) :: _ => nextStart
  | [] => total

/-- The `CHAP` frames built by the loop at lines 103–117: chapter `idx` ends
where the next chapter starts, and the last chapter ends at
`total_duration_ms`. -/
def buildCHAPs (idx : Nat) (chapters : List (String × Int)) (total : Int) :
    List CHAPFrame :=
  match chapters with
  | [] => []
  | (title, start) :: rest =>
    { element_id := chapId (idx + 1)
      start_time := start
      end_time := nextEnd rest total
      start_offset := 0
      end_offset := 0
      sub_frames := [⟨3, [title]⟩] } :: buildCHAPs (idx + 1) rest total

/-- The in-memory mutation of the tag container performed by
`embed_chapters` (lines 80–119): remove every `CHAP`/`CTOC` frame, add the
new `CTOC`, then add each `CHAP` in order. -/
def embedChaptersTags (tags : TagContainer) (chapters : List (String × Int))
    (total : Int) : TagContainer :=
  let cleaned := removeChapCtoc tags
  let withToc := tagsAdd cleaned (.ctoc (buildCTOC chapters))
  (buildCHAPs 0 chapters total).foldl (fun acc c => tagsAdd acc (.chap c)) withToc

/-! ### Filesystem model and the effectful part of `embed_chapters`
(src/Cue2ID3.py lines 121–147) and `process_files` (lines 324–346)

The filesystem maps paths to file contents. A CUE file is its list of lines;
an MP3 file is its tag container, its probed duration, and its audio bytes
(a byte-for-byte copy such as the backup copies all three). The two fallible
operations wrapped in `try/except` in the source are driven by an explicit
oracle: whether creating the backup copy raises, and whether `tags.save`
raises — and, if it raises, what content it leaves behind in the target file
(any partial write is allowed). All other reads and writes of existing
in-model files succeed, as they do in a single-process run. -/

/-- Contents of a file. -/
inductive FileData where
  | cueText (lines : List String)
  | mp3File (tags : TagContainer) (durationMs : Int) (audio : List Nat)
deriving DecidableEq

/-- The filesystem: an association list from paths to contents. -/
abbrev FS : Type := List (String × FileData)

/-- Look up a path. -/
def lookupFS : FS → String → Option FileData
  | [], _ => none
  | (k, v) :: rest, p => if k = p then some v else lookupFS rest p

/-- Write a file: replace the entry in place, else append. -/
def insertFS (fs : FS) (p : String) (d : FileData) : FS :=
  if fs.any (fun kv => kv.1 = p) then
    fs.map (fun kv => if kv.1 = p then (p, d) else kv)
  else fs ++ [(p, d)]

/-- `os.remove`: drop the entry. -/
def eraseFS (fs : FS) (p : String) : FS :=
  fs.filter (fun kv => ¬ kv.1 = p)

/-- Failure oracle for the two `try`-wrapped filesystem operations of
`embed_chapters`. `saveOutcome = none` means `tags.save` succeeds;
`saveOutcome = some junk` means it raises after leaving the target file with
content `junk` (taking `junk` to be the original content models a failure
that never touched the file). -/
structure Oracles where
  backupCreateFails : Bool
  saveOutcome : Option FileData
deriving DecidableEq

deriving instance DecidableEq for Except

/-- Errors surfaced by `embed_chapters`: a failure to read the MP3 file
(`ID3`/`MP3` constructor raising, propagated uncaught), or the re-raised
`tags.save` error (line 144). -/
inductive EmbedErr where
  | readErr
  | saveErr
deriving DecidableEq

/-- Model of `embed_chapters` (lines 69–147). Reads the tag container and
duration from the MP3 file, mutates the container in memory, creates the
backup copy if no backup exists (lines 121–129; a creation failure is caught
and only logged), then saves (lines 131–144): on success returns the backup
path; on failure restores from the backup when it can be read, and re-raises
either way. -/
def embedChapters (o : Oracles) (fs : FS) (mp3Path : String)
    (chapters : List (String × Int)) : FS × Except EmbedErr String :=
  match lookupFS fs mp3Path with
  | some (.mp3File tags dur audio) =>
    let newTags := embedChaptersTags tags chapters dur
    let backupFile := mp3Path ++ ".bak"
    let fs1 :=
      if lookupFS fs backupFile = none then
        if o.backupCreateFails then fs
        else insertFS fs backupFile (.mp3File tags dur audio)
      else fs
    match o.saveOutcome with
    | none => (insertFS fs1 mp3Path (.mp3File newTags dur audio), .ok backupFile)
    | some junk =>
      let fs2 := insertFS fs1 mp3Path junk
      match lookupFS fs2 backupFile with
      | some bak => (insertFS fs2 mp3Path bak, .error .saveErr)
      | none => (fs2, .error .saveErr)
  | _ => (fs, .error .readErr)

/-- Model of `process_files` (lines 324–346, the later definition, which is
the one in effect): parse the CUE file (a missing or unreadable file, or an
empty chapter list, is caught and yields `False`), embed, and on success
delete the backup file if present and the CUE file if present; any exception
yields `False`. -/
def processFiles (o : Oracles) (fs : FS) (cuePath mp3Path : String) :
    FS × Bool :=
  match lookupFS fs cuePath with
  | some (.cueText lines) =>
    let chapters := parseLines lines
    if chapters.isEmpty then (fs, false)
    else
      match embedChapters o fs mp3Path chapters with
      | (fs1, .ok backupFile) =>
        let fs2 := if (lookupFS fs1 backupFile).isSome then eraseFS fs1 backupFile else fs1
        let fs3 := if (lookupFS fs2 cuePath).isSome then eraseFS fs2 cuePath else fs2
        (fs3, true)
      | (fs1, .error _) => (fs1, false)
  | _ => (fs, false)

/-! ### Properties of the chapter planner (claims C3, C8) -/

theorem buildCHAPs_length (idx : Nat) (seeds : List (String × Int)) (total : Int) :
    (buildCHAPs idx seeds total).length = seeds.length := by
  induction seeds generalizing idx with
  | nil => rfl
  | cons hd tl ih => cases hd; simp [buildCHAPs, ih]

theorem buildCHAPs_get?_end_eq_next_start (seeds : List (String × Int))
    (idx : Nat) (total : Int) (i : Nat) (c c' : CHAPFrame)
    (hc : (buildCHAPs idx seeds total).get? i = some c)
    (hc' : (buildCHAPs idx seeds total).get? (i + 1) = some c') :
    c.end_time = c'.start_time := by
  induction seeds generalizing idx i with
  | nil => simp [buildCHAPs] at hc
  | cons hd tl ih =>
    cases hd with
    | mk t s =>
      cases i with
      | zero =>
        cases tl with
        | nil => simp [buildCHAPs] at hc'
        | cons hd2 tl2 =>
          cases hd2 with
          | mk t2 s2 =>
            simp [buildCHAPs] at hc hc'
            rw [← hc, ← hc']
            rfl
      | succ j =>
        simp only [buildCHAPs, List.get?_cons_succ] at hc hc'
        exact ih idx.succ j hc hc'

theorem buildCHAPs_getLast?_end (seeds : List (String × Int)) (idx : Nat)
    (total : Int) (c : CHAPFrame)
    (hc : (buildCHAPs idx seeds total).getLast? = some c) :
    c.end_time = total := by
  induction seeds generalizing idx with
  | nil => simp [buildCHAPs] at hc
  | cons hd tl ih =>
    cases hd with
    | mk t s =>
      cases tl with
      | nil =>
        simp [buildCHAPs] at hc
        rw [← hc]
        rfl
      | cons hd2 tl2 =>
        cases hd2 with
        | mk t2 s2 =>
          simp only [buildCHAPs, List.getLast?_cons_cons] at hc
          exact ih (idx + 1) (by simp only [buildCHAPs]; exact hc)

/-- C3: for every ordered chapter-seed sequence and every total track duration
at least the last seed's start, the chapters produced by the planning loop of
`embed_chapters` are contiguous — chapter `i`'s `end_time` equals chapter
`i+1`'s `start_time` — and the last chapter's `end_time` equals the total
track duration in milliseconds. -/
theorem chapters_contiguous_and_last_ends_at_total
    (seeds : List (String × Int)) (total : Int)
    (hord : List.Chain' (fun a b => a.2 ≤ b.2) seeds)
    (hlast : ∀ p, seeds.getLast? = some p → p.2 ≤ total) :
    (∀ i c c', (buildCHAPs 0 seeds total).get? i = some c →
        (buildCHAPs 0 seeds total).get? (i + 1) = some c' →
        c.end_time = c'.start_time) ∧
    (∀ c, (buildCHAPs 0 seeds total).getLast? = some c → c.end_time = total) :=
  ⟨fun i c c' hc hc' => buildCHAPs_get?_end_eq_next_start seeds 0 total i c c' hc hc',
   fun c hc => buildCHAPs_getLast?_end seeds 0 total c hc⟩

/-- Witness for C3 at the concrete seeds `[("A", 0), ("B", 1000)]` with total
duration 5000 ms. -/
theorem chapters_contiguous_and_last_ends_at_total_witness :
    (buildCHAPs 0 [("A", 0), ("B", 1000)] 5000).get? 0
        = some ⟨"chp01", 0, 1000, 0, 0, [⟨3, ["A"]⟩]⟩ ∧
    (buildCHAPs 0 [("A", 0), ("B", 1000)] 5000).get? 1
        = some ⟨"chp02", 1000, 5000, 0, 0, [⟨3, ["B"]⟩]⟩ ∧
    (⟨"chp01", 0, 1000, 0, 0, [⟨3, ["A"]⟩]⟩ : CHAPFrame).end_time
        = (⟨"chp02", 1000, 5000, 0, 0, [⟨3, ["B"]⟩]⟩ : CHAPFrame).start_time ∧
    (⟨"chp02", 1000, 5000, 0, 0, [⟨3, ["B"]⟩]⟩ : CHAPFrame).end_time = 5000 :=
  ⟨by decide, by decide,
   (chapters_contiguous_and_last_ends_at_total [("A", 0), ("B", 1000)] 5000
       (by norm_num [List.chain'_cons])
       (fun p hp => by injection hp with h; subst h; decide)).1 0 _ _
     (by decide) (by decide),
   (chapters_contiguous_and_last_ends_at_total [("A", 0), ("B", 1000)] 5000
       (by norm_num [List.chain'_cons])
       (fun p hp => by injection hp with h; subst h; decide)).2 _ (by decide)⟩

theorem buildCHAPs_map_elementId (seeds : List (String × Int)) (idx : Nat)
    (total : Int) :
    (buildCHAPs idx seeds total).map CHAPFrame.element_id
      = (List.range seeds.length).map (fun k => chapId (idx + k + 1)) := by
  induction seeds generalizing idx with
  | nil => rfl
  | cons hd tl ih =>
    cases hd with
    | mk t s =>
      simp only [buildCHAPs, List.map_cons, List.length_cons,
        List.range_succ_eq_map, List.map_map]
      refine congrArg₂ _ rfl ?_
      rw [ih (idx + 1)]
      apply List.map_congr_left
      intro k _
      simp only [Function.comp_apply]
      congr 1
      omega

theorem buildCHAPs_get?_elementId (seeds : List (String × Int)) (idx : Nat)
    (total : Int) (i : Nat) (c : CHAPFrame)
    (hc : (buildCHAPs idx seeds total).get? i = some c) :
    c.element_id = chapId (idx + i + 1) := by
  induction seeds generalizing idx i with
  | nil => simp [buildCHAPs] at hc
  | cons hd tl ih =>
    cases hd with
    | mk t s =>
      cases i with
      | zero => simp [buildCHAPs] at hc; rw [← hc]
      | succ j =>
        simp only [buildCHAPs, List.get?_cons_succ] at hc
        have := ih (idx + 1) j hc
        rw [this]
        congr 1
        omega

/-- C8: chapter `i` (0-indexed) receives the element id `chp` followed by
`i+1` zero-padded to width 2 (`chp01`, `chp02`, …, which is what `chapId`
renders), and the table-of-contents frame has element id `toc`, the top-level
and ordered flag bits set, and child ids equal to all chapter element ids in
chapter order. -/
theorem chapter_and_toc_ids (chapters : List (String × Int)) (total : Int) :
    ((buildCTOC chapters).element_id = "toc"
      ∧ (buildCTOC chapters).flags &&& CTOCFlags_TOP_LEVEL ≠ 0
      ∧ (buildCTOC chapters).flags &&& CTOCFlags_ORDERED ≠ 0
      ∧ (buildCTOC chapters).child_element_ids
          = (buildCHAPs 0 chapters total).map CHAPFrame.element_id)
    ∧ (∀ i c, (buildCHAPs 0 chapters total).get? i = some c →
        c.element_id = chapId (i + 1))
    ∧ chapId 1 = "chp01" ∧ chapId 2 = "chp02" := by
  refine ⟨⟨rfl,
    (by decide : (CTOCFlags_TOP_LEVEL ||| CTOCFlags_ORDERED) &&& CTOCFlags_TOP_LEVEL ≠ 0),
    (by decide : (CTOCFlags_TOP_LEVEL ||| CTOCFlags_ORDERED) &&& CTOCFlags_ORDERED ≠ 0),
    ?_⟩, ?_, by decide, by decide⟩
  · rw [buildCHAPs_map_elementId]
    simp only [buildCTOC, childIds]
    apply List.map_congr_left
    intro k _
    congr 1
    omega
  · intro i c hc
    have := buildCHAPs_get?_elementId chapters 0 total i c hc
    rw [this]
    congr 1
    omega

/-! ### Injectivity of the chapter element ids -/

theorem natCharsAux_append (fuel : Nat) :
    ∀ n acc, natCharsAux fuel n acc = natCharsAux fuel n [] ++ acc := by
  induction fuel with
  | zero => intro n acc; rfl
  | succ k ih =>
    intro n acc
    by_cases h : n < 10
    · simp [natCharsAux, h]
    · simp only [natCharsAux, if_neg h]
      rw [ih (n / 10) (Nat.digitChar (n % 10) :: acc),
        ih (n / 10) [Nat.digitChar (n % 10)]]
      simp

theorem natCharsAux_fuel (f1 : Nat) :
    ∀ f2 n, n ≤ f1 → n ≤ f2 → natCharsAux f1 n [] = natCharsAux f2 n [] := by
  induction f1 with
  | zero =>
    intro f2 n h1 _
    interval_cases n
    cases f2 with
    | zero => rfl
    | succ k => rfl
  | succ k ih =>
    intro f2 n h1 h2
    by_cases h : n < 10
    · cases f2 with
      | zero =>
        interval_cases n
        rfl
      | succ k2 => simp [natCharsAux, h]
    · cases f2 with
      | zero => omega
      | succ k2 =>
        simp only [natCharsAux, if_neg h]
        rw [natCharsAux_append k, natCharsAux_append k2]
        rw [ih k2 (n / 10) (by omega) (by omega)]

theorem natChars_lt10 (n : Nat) (h : n < 10) : natChars n = [Nat.digitChar n] := by
  cases hn : n with
  | zero => rfl
  | succ m =>
    subst hn
    simp [natChars, natCharsAux, h]

theorem natChars_ge10 (n : Nat) (h : 10 ≤ n) :
    natChars n = natChars (n / 10) ++ [Nat.digitChar (n % 10)] := by
  obtain ⟨m, rfl⟩ : ∃ m, n = m + 1 := ⟨n - 1, by omega⟩
  show natCharsAux (m + 1) (m + 1) [] = _
  rw [natCharsAux, if_neg (by omega)]
  rw [natCharsAux_append m]
  congr 1
  exact natCharsAux_fuel m ((m + 1) / 10) ((m + 1) / 10) (by omega) (by omega)

theorem digitChar_toNat_sub (d : Nat) (h : d < 10) :
    (Nat.digitChar d).toNat - 48 = d := by
  interval_cases d <;> rfl

theorem digitChar_isDigit (d : Nat) (h : d < 10) :
    (Nat.digitChar d).isDigit = true := by
  interval_cases d <;> rfl

/-- Read the decimal digits back: a left inverse for `natChars`. -/
def valOf (l : List Char) : Nat :=
  l.foldl (fun a c => a * 10 + (c.toNat - 48)) 0

theorem valOf_aux (l : List Char) :
    ∀ a, l.foldl (fun a c => a * 10 + (c.toNat - 48)) a
      = a * 10 ^ l.length + valOf l := by
  induction l with
  | nil => intro a; simp [valOf]
  | cons c cs ih =>
    intro a
    simp only [List.foldl_cons, valOf, List.length_cons]
    rw [ih (a * 10 + (c.toNat - 48)), ih (0 * 10 + (c.toNat - 48))]
    ring

theorem valOf_append_singleton (l : List Char) (c : Char) :
    valOf (l ++ [c]) = valOf l * 10 + (c.toNat - 48) := by
  simp [valOf, List.foldl_append]

theorem valOf_natChars (n : Nat) : valOf (natChars n) = n := by
  induction n using Nat.strong_induction_on with
  | _ n ih =>
    by_cases h : n < 10
    · rw [natChars_lt10 n h]
      show 0 * 10 + ((Nat.digitChar n).toNat - 48) = n
      rw [digitChar_toNat_sub n h]
      omega
    · rw [natChars_ge10 n (by omega), valOf_append_singleton,
        ih (n / 10) (by omega), digitChar_toNat_sub (n % 10) (by omega)]
      omega

theorem natChars_inj (n m : Nat) (h : natChars n = natChars m) : n = m := by
  have := valOf_natChars n
  rw [h, valOf_natChars m] at this
  omega

theorem natChars_ne_nil (n : Nat) : natChars n ≠ [] := by
  by_cases h : n < 10
  · rw [natChars_lt10 n h]; simp
  · rw [natChars_ge10 n (by omega)]; simp

theorem natChars_length_ge_two (n : Nat) (h : 10 ≤ n) :
    2 ≤ (natChars n).length := by
  rw [natChars_ge10 n h]
  have := natChars_ne_nil (n / 10)
  cases hc : natChars (n / 10) with
  | nil => exact absurd hc this
  | cons a l => simp

theorem digitChar_inj (a b : Nat) (ha : a < 10) (hb : b < 10)
    (h : Nat.digitChar a = Nat.digitChar b) : a = b := by
  have h1 := digitChar_toNat_sub a ha
  have h2 := digitChar_toNat_sub b hb
  rw [h, h2] at h1
  omega

theorem pad2_inj (n m : Nat) (h : pad2 n = pad2 m) : n = m := by
  unfold pad2 at h
  by_cases hn : n < 10 <;> by_cases hm : m < 10
  · rw [if_pos hn, if_pos hm] at h
    simp only [List.cons.injEq] at h
    exact natChars_inj n m h.2
  · rw [if_pos hn, if_neg hm] at h
    rw [natChars_lt10 n hn] at h
    by_cases hm2 : m / 10 < 10
    · rw [natChars_ge10 m (by omega), natChars_lt10 (m / 10) hm2] at h
      simp only [List.cons_append, List.nil_append, List.cons.injEq] at h
      have : m / 10 = 0 := by
        have h0 : Nat.digitChar (m / 10) = '0' := h.1.symm
        have := digitChar_inj (m / 10) 0 hm2 (by omega) (by rw [h0]; rfl)
        omega
      omega
    · have hlen := natChars_length_ge_two m (by omega)
      have hlen2 := natChars_length_ge_two (m / 10) (by omega)
      rw [natChars_ge10 m (by omega)] at h
      have : ('0' :: [Nat.digitChar n]).length
          = (natChars (m / 10) ++ [Nat.digitChar (m % 10)]).length := by rw [h]
      simp at this
      omega
  · rw [if_neg hn, if_pos hm] at h
    rw [natChars_lt10 m hm] at h
    by_cases hn2 : n / 10 < 10
    · rw [natChars_ge10 n (by omega), natChars_lt10 (n / 10) hn2] at h
      simp only [List.cons_append, List.nil_append, List.cons.injEq] at h
      have : n / 10 = 0 := by
        have h0 : Nat.digitChar (n / 10) = '0' := h.1
        have := digitChar_inj (n / 10) 0 hn2 (by omega) (by rw [h0]; rfl)
        omega
      omega
    · have hlen2 := natChars_length_ge_two (n / 10) (by omega)
      rw [natChars_ge10 n (by omega)] at h
      have : (natChars (n / 10) ++ [Nat.digitChar (n % 10)]).length
          = ('0' :: [Nat.digitChar m]).length := by rw [h]
      simp at this
      omega
  · rw [if_neg hn, if_neg hm] at h
    exact natChars_inj n m h

theorem chapId_inj (n m : Nat) (h : chapId n = chapId m) : n = m := by
  unfold chapId at h
  have hd : ('c' :: 'h' :: 'p' :: pad2 n) = ('c' :: 'h' :: 'p' :: pad2 m) :=
    congrArg String.data h
  simp only [List.cons.injEq, true_and] at hd
  exact pad2_inj n m hd

/-- Witness for C8 at two concrete chapters. -/
theorem chapter_and_toc_ids_witness :
    (buildCTOC [("A", 0), ("B", 1000)]).element_id = "toc" ∧
    (buildCTOC [("A", 0), ("B", 1000)]).child_element_ids = ["chp01", "chp02"] ∧
    (⟨"chp02", 1000, 5000, 0, 0, [⟨3, ["B"]⟩]⟩ : CHAPFrame).element_id = chapId 2 :=
  ⟨(chapter_and_toc_ids [("A", 0), ("B", 1000)] 5000).1.1,
   by decide,
   (chapter_and_toc_ids [("A", 0), ("B", 1000)] 5000).2.1 1 _ (by decide)⟩

/-! ### Frame replacement counts (claim C5) -/

theorem strData_append (a b : String) : (a ++ b).data = a.data ++ b.data := rfl

theorem startsL_append_self (pat rest : List Char) :
    startsL pat (pat ++ rest) = true := by
  induction pat with
  | nil => rfl
  | cons c cs ih => simp [startsL, ih]

theorem startsL_chap_key (s : String) :
    startsL "CHAP".data ("CHAP:" ++ s).data = true := by
  rw [strData_append]
  exact startsL_append_self "CHAP".data (':' :: s.data)

theorem startsL_ctoc_key (s : String) :
    startsL "CTOC".data ("CTOC:" ++ s).data = true := by
  rw [strData_append]
  exact startsL_append_self "CTOC".data (':' :: s.data)

theorem not_startsL_ctoc_of_chap (s : String) :
    startsL "CTOC".data ("CHAP:" ++ s).data = false := by
  rw [strData_append]
  rfl

theorem not_startsL_chap_of_ctoc (s : String) :
    startsL "CHAP".data ("CTOC:" ++ s).data = false := by
  rw [strData_append]
  rfl

theorem string_append_left_cancel (a x y : String) (h : a ++ x = a ++ y) :
    x = y := by
  have hd := congrArg String.data h
  rw [strData_append, strData_append] at hd
  exact congrArg String.mk (List.append_cancel_left hd)

theorem removeChapCtoc_no_chap (tags : TagContainer) (kv : String × Frame)
    (hm : kv ∈ removeChapCtoc tags) :
    startsL "CHAP".data kv.1.data = false ∧ startsL "CTOC".data kv.1.data = false := by
  rw [removeChapCtoc, List.mem_filter] at hm
  have := hm.2
  simp only [decide_eq_true_eq, Bool.or_eq_true, not_or] at this
  exact ⟨by simpa using this.1, by simpa using this.2⟩

theorem tagsAdd_append (acc : TagContainer) (fr : Frame)
    (h : ∀ kv ∈ acc, ¬ kv.1 = frameKey fr) :
    tagsAdd acc fr = acc ++ [(frameKey fr, fr)] := by
  rw [tagsAdd, if_neg]
  intro hany
  rw [List.any_eq_true] at hany
  obtain ⟨kv, hkv, heq⟩ := hany
  exact h kv hkv (by simpa using heq)

theorem foldl_tagsAdd_chaps (seeds : List (String × Int)) :
    ∀ (idx : Nat) (total : Int) (acc : TagContainer),
    (∀ kv ∈ acc, startsL "CHAP".data kv.1.data = false
        ∨ ∃ j, 1 ≤ j ∧ j ≤ idx ∧ kv.1 = "CHAP:" ++ chapId j) →
    (buildCHAPs idx seeds total).foldl (fun acc c => tagsAdd acc (.chap c)) acc
      = acc ++ (buildCHAPs idx seeds total).map
          (fun c => ("CHAP:" ++ c.element_id, Frame.chap c)) := by
  induction seeds with
  | nil => intro idx total acc _; simp [buildCHAPs]
  | cons hd tl ih =>
    intro idx total acc hacc
    cases hd with
    | mk t s =>
      simp only [buildCHAPs, List.foldl_cons, List.map_cons]
      have hc0 : ∃ c0 : CHAPFrame, c0 =
        { element_id := chapId (idx + 1), start_time := s,
          end_time := nextEnd tl total,
          start_offset := 0, end_offset := 0,
          sub_frames := [⟨3, [t]⟩] } := ⟨_, rfl⟩
      obtain ⟨c0, hc0⟩ := hc0
      rw [← hc0]
      have hkey : frameKey (.chap c0) = "CHAP:" ++ chapId (idx + 1) := by
        rw [hc0]; rfl
      have hadd : tagsAdd acc (.chap c0) = acc ++ [(frameKey (.chap c0), .chap c0)] := by
        apply tagsAdd_append
        intro kv hkv hbad
        rcases hacc kv hkv with hnone | ⟨j, hj1, hj2, hjeq⟩
        · rw [hkey] at hbad
          rw [hbad] at hnone
          rw [startsL_chap_key] at hnone
          exact Bool.noConfusion hnone
        · rw [hkey, hjeq] at hbad
          have := chapId_inj j (idx + 1) (string_append_left_cancel _ _ _ hbad)
          omega
      rw [hadd]
      have hinv : ∀ kv ∈ acc ++ [(frameKey (Frame.chap c0), Frame.chap c0)],
          startsL "CHAP".data kv.1.data = false
            ∨ ∃ j, 1 ≤ j ∧ j ≤ idx + 1 ∧ kv.1 = "CHAP:" ++ chapId j := by
        intro kv hkv
        rcases List.mem_append.1 hkv with hold | hnew
        · rcases hacc kv hold with hnone | ⟨j, hj1, hj2, hjeq⟩
          · exact Or.inl hnone
          · exact Or.inr ⟨j, hj1, by omega, hjeq⟩
        · simp only [List.mem_singleton] at hnew
          subst hnew
          exact Or.inr ⟨idx + 1, by omega, by omega, hkey⟩
      rw [ih (idx + 1) total (acc ++ [(frameKey (Frame.chap c0), Frame.chap c0)]) hinv]
      rw [List.append_assoc, hkey]
      rfl

/-- C5: re-running the embedding on a tag container that already holds
chapter and table-of-contents frames replaces rather than duplicates them:
every frame whose key starts with `CHAP` or `CTOC` is removed first, so the
resulting container holds exactly one table-of-contents frame and exactly as
many chapter frames as there are chapters — for every starting container. -/
theorem embed_replaces_chap_ctoc_frames (tags : TagContainer)
    (chapters : List (String × Int)) (total : Int) :
    (embedChaptersTags tags chapters total).countP
        (fun kv => startsL "CHAP".data kv.1.data) = chapters.length ∧
    (embedChaptersTags tags chapters total).countP
        (fun kv => startsL "CTOC".data kv.1.data) = 1 := by
  have hctocKey : frameKey (.ctoc (buildCTOC chapters)) = "CTOC:" ++ "toc" := rfl
  have hbase : tagsAdd (removeChapCtoc tags) (.ctoc (buildCTOC chapters))
      = removeChapCtoc tags ++ [(frameKey (.ctoc (buildCTOC chapters)),
          .ctoc (buildCTOC chapters))] := by
    apply tagsAdd_append
    intro kv hkv hbad
    have := (removeChapCtoc_no_chap tags kv hkv).2
    rw [hctocKey] at hbad
    rw [hbad, startsL_ctoc_key] at this
    exact Bool.noConfusion this
  have hfold := foldl_tagsAdd_chaps chapters 0 total
      (removeChapCtoc tags ++ [(frameKey (.ctoc (buildCTOC chapters)),
          .ctoc (buildCTOC chapters))]) ?hacc
  case hacc =>
    intro kv hkv
    rcases List.mem_append.1 hkv with hold | hnew
    · exact Or.inl (removeChapCtoc_no_chap tags kv hold).1
    · simp only [List.mem_singleton] at hnew
      subst hnew
      left
      rw [hctocKey]
      exact not_startsL_chap_of_ctoc "toc"
  rw [embedChaptersTags, hbase, hfold]
  constructor
  · rw [List.countP_append, List.countP_append]
    have h1 : (removeChapCtoc tags).countP
        (fun kv => startsL "CHAP".data kv.1.data) = 0 := by
      rw [List.countP_eq_zero]
      intro kv hkv
      simp [(removeChapCtoc_no_chap tags kv hkv).1]
    have h2 : ([(frameKey (.ctoc (buildCTOC chapters)), Frame.ctoc (buildCTOC chapters))]).countP
        (fun kv => startsL "CHAP".data kv.1.data) = 0 := by
      rw [List.countP_eq_zero]
      intro kv hkv
      simp only [List.mem_singleton] at hkv
      subst hkv
      show ¬ startsL "CHAP".data (frameKey (.ctoc (buildCTOC chapters))).data = true
      rw [hctocKey, not_startsL_chap_of_ctoc]
      simp
    have h3 : ((buildCHAPs 0 chapters total).map
          (fun c => ("CHAP:" ++ c.element_id, Frame.chap c))).countP
        (fun kv => startsL "CHAP".data kv.1.data)
        = chapters.length := by
      rw [← buildCHAPs_length 0 chapters total, ← List.length_map _
        (fun c => ("CHAP:" ++ c.element_id, Frame.chap c))]
      rw [List.countP_eq_length]
      intro kv hkv
      rcases List.mem_map.1 hkv with ⟨c, _, rfl⟩
      exact startsL_chap_key c.element_id
    omega
  · rw [List.countP_append, List.countP_append]
    have h1 : (removeChapCtoc tags).countP
        (fun kv => startsL "CTOC".data kv.1.data) = 0 := by
      rw [List.countP_eq_zero]
      intro kv hkv
      simp [(removeChapCtoc_no_chap tags kv hkv).2]
    have h2 : ([(frameKey (.ctoc (buildCTOC chapters)), Frame.ctoc (buildCTOC chapters))]).countP
        (fun kv => startsL "CTOC".data kv.1.data) = 1 := by
      have : startsL "CTOC".data (frameKey (.ctoc (buildCTOC chapters))).data = true := by
        rw [hctocKey]
        exact startsL_ctoc_key "toc"
      simp [List.countP_cons, this]
    have h3 : ((buildCHAPs 0 chapters total).map
          (fun c => ("CHAP:" ++ c.element_id, Frame.chap c))).countP
        (fun kv => startsL "CTOC".data kv.1.data) = 0 := by
      rw [List.countP_eq_zero]
      intro kv hkv
      rcases List.mem_map.1 hkv with ⟨c, _, rfl⟩
      show ¬ startsL "CTOC".data ("CHAP:" ++ c.element_id).data = true
      rw [not_startsL_ctoc_of_chap]
      simp
    omega

/-! ### Timecode conversion (claim C2) and malformed-token handling (C9, C10) -/

/-- The conversion the specification prescribes for a timecode:
`round((minutes*60 + seconds + frames/75) * 1000)`, with exact arithmetic and
rounding to the nearest integer. For `b > 0` the nearest integer to the
rational `a / b` is `⌊(2a + b) / (2b)⌋`; here `a = ((m*60+s)*75 + f) * 1000`
and `b = 75`. (Halfway cases round up here; the spec leaves the tie rule
open and no input considered below is a tie.) Stated from the spec's words,
for comparison with the source's `cueTimeToMs`. -/
def specRoundMs (m s f : Int) : Int :=
  Int.ediv (2 * (((m * 60 + s) * 75 + f) * 1000) + 75) 150

/-- C2 counterexample: at the claim's own example token `12:34:56` the parser
produces 754746 ms (truncation toward zero, matching `int(...)` in the
source), while the claimed formula `round((m*60 + s + f/75) * 1000)` gives
754747 ms — so the conversion is not performed via `round` as claimed. -/
theorem timecode_not_rounded_counterexample :
    parseTimeToken "INDEX 01 12:34:56".data = some 754746 ∧
    cueTimeToMs 12 34 56 = 754746 ∧
    specRoundMs 12 34 56 = 754747 := by
  refine ⟨by decide, by decide, by decide⟩

/-- C2 (amended): for every line containing `INDEX 01` (case-insensitively,
and not starting with `TRACK`/`TITLE`) whose trailing whitespace-delimited
token splits on `:` into integer fields `(m, s, f)`, the parser sets the
current time to `int((m*60 + s + f/75.0) * 1000)` — the IEEE-754 double
computation truncated toward zero, not rounded; in particular `12:34:56`
yields 754746 ms. -/
theorem index_line_sets_truncated_time
    (st : ParseState) (line : String) (tok a b c : List Char) (m s f : Int)
    (h1 : startsL "TRACK".data (upperL (trimL line.data)) = false)
    (h2 : startsL "TITLE".data (upperL (trimL line.data)) = false)
    (h3 : containsL "INDEX 01".data (upperL (trimL line.data)) = true)
    (h4 : (pySplitWs (trimL line.data)).getLast? = some tok)
    (h5 : splitOnChar ':' tok = [a, b, c])
    (h6 : pyIntChars a = some m) (h7 : pyIntChars b = some s)
    (h8 : pyIntChars c = some f) :
    stepLine st line = { st with current_time := some (cueTimeToMs m s f) } ∧
    cueTimeToMs 12 34 56 = 754746 := by
  constructor
  · have hp : parseTimeToken (trimL line.data) = some (cueTimeToMs m s f) := by
      simp only [parseTimeToken, h4, h5, h6, h7, h8]
    simp only [stepLine, h1, h2, h3, hp]
    simp
  · decide

/-- Witness for C2 (amended) at the line `INDEX 01 12:34:56`. -/
theorem index_line_sets_truncated_time_witness :
    stepLine ⟨[], none, none⟩ "INDEX 01 12:34:56"
      = ⟨[], none, some (cueTimeToMs 12 34 56)⟩ ∧
    cueTimeToMs 12 34 56 = 754746 :=
  index_line_sets_truncated_time ⟨[], none, none⟩ "INDEX 01 12:34:56"
    "12:34:56".data "12".data "34".data "56".data 12 34 56
    (by decide) (by decide) (by decide) (by decide) (by decide)
    (by decide) (by decide) (by decide)

/-- C9 counterexample: a malformed timecode token does not cause the current
TRACK block to be dropped when the block's time was already set by an
earlier valid `INDEX 01` line — the `except` branch leaves `current_time`
unchanged rather than unset, so the block below is still returned. -/
theorem malformed_token_block_kept_counterexample :
    parseLines ["TRACK 01 AUDIO", "TITLE \"A\"", "INDEX 01 00:00:00",
        "INDEX 01 xx:yy:zz"]
      = [("A", 0)] := by decide

/-- C9 (amended): a malformed timecode token on an `INDEX 01` line leaves the
parser state unchanged (the block's time keeps its previous value — unset if
no valid `INDEX 01` line was seen in the block, in which case the block is
dropped at flush); parsing continues, the seeds of the surrounding lines are
exactly those produced without the malformed line, and the parse as a whole
does not fail. -/
theorem malformed_index_line_is_skipped
    (st : ParseState) (line : String) (pre post : List String)
    (h1 : startsL "TRACK".data (upperL (trimL line.data)) = false)
    (h2 : startsL "TITLE".data (upperL (trimL line.data)) = false)
    (h3 : containsL "INDEX 01".data (upperL (trimL line.data)) = true)
    (h4 : parseTimeToken (trimL line.data) = none) :
    stepLine st line = st ∧
    parseLines (pre ++ line :: post) = parseLines (pre ++ post) := by
  have hstep : ∀ s : ParseState, stepLine s line = s := by
    intro s
    simp only [stepLine, h1, h2, h3, h4]
    simp
  refine ⟨hstep st, ?_⟩
  unfold parseLines
  rw [List.foldl_append, List.foldl_append, List.foldl_cons, hstep]

/-- Witness for C9 (amended) with the malformed line `INDEX 01 xx:yy:zz`
between two valid blocks. -/
theorem malformed_index_line_is_skipped_witness :
    stepLine ⟨[], none, none⟩ "INDEX 01 xx:yy:zz" = ⟨[], none, none⟩ ∧
    parseLines (["TRACK 01 AUDIO", "TITLE \"A\""]
        ++ "INDEX 01 xx:yy:zz"
          :: ["TRACK 02 AUDIO", "TITLE \"B\"", "INDEX 01 00:01:00"])
      = parseLines (["TRACK 01 AUDIO", "TITLE \"A\""]
          ++ ["TRACK 02 AUDIO", "TITLE \"B\"", "INDEX 01 00:01:00"]) :=
  malformed_index_line_is_skipped ⟨[], none, none⟩ "INDEX 01 xx:yy:zz"
    ["TRACK 01 AUDIO", "TITLE \"A\""]
    ["TRACK 02 AUDIO", "TITLE \"B\"", "INDEX 01 00:01:00"]
    (by decide) (by decide) (by decide) (by decide)

/-- C10: the parser can produce a chapter seed that belongs to no TRACK
block — a CUE text with a quoted TITLE and a well-formed INDEX 01 line but no
TRACK directive at all yields one seed, flushed at end of input. -/
theorem seed_without_track_block :
    parseLines ["TITLE \"A\"", "INDEX 01 00:02:00"] = [("A", 2000)] := by
  decide

/-! ### Filesystem lemmas -/

theorem lookupFS_map_replace (p : String) (d : FileData) :
    ∀ fs : FS, fs.any (fun kv => kv.1 = p) = true →
      lookupFS (fs.map (fun kv => if kv.1 = p then (p, d) else kv)) p = some d := by
  intro fs
  induction fs with
  | nil => intro h; simp at h
  | cons kv rest ih =>
    obtain ⟨k, v⟩ := kv
    intro h
    by_cases hk : k = p
    · subst hk
      rw [List.map_cons]
      have hentry : (if (k, v).1 = k then (k, d) else (k, v)) = (k, d) := by simp
      rw [hentry, lookupFS, if_pos rfl]
    · rw [List.map_cons]
      have hentry : (if (k, v).1 = p then (p, d) else (k, v)) = (k, v) := by simp [hk]
      rw [hentry, lookupFS, if_neg hk]
      simp only [List.any_cons, Bool.or_eq_true, decide_eq_true_eq] at h
      rcases h with h | h
      · exact absurd h hk
      · exact ih h

theorem lookupFS_map_replace_ne (p q : String) (d : FileData) (h : ¬ q = p) :
    ∀ fs : FS,
      lookupFS (fs.map (fun kv => if kv.1 = p then (p, d) else kv)) q
        = lookupFS fs q := by
  intro fs
  induction fs with
  | nil => rfl
  | cons kv rest ih =>
    obtain ⟨k, v⟩ := kv
    by_cases hk : k = p
    · subst hk
      rw [List.map_cons]
      have hentry : (if (k, v).1 = k then (k, d) else (k, v)) = (k, d) := by simp
      rw [hentry, lookupFS, lookupFS,
        if_neg (fun hkq : k = q => h (hkq ▸ rfl)),
        if_neg (fun hkq : k = q => h (hkq ▸ rfl))]
      exact ih
    · rw [List.map_cons]
      have hentry : (if (k, v).1 = p then (p, d) else (k, v)) = (k, v) := by simp [hk]
      rw [hentry, lookupFS, lookupFS]
      by_cases hkq : k = q
      · rw [if_pos hkq, if_pos hkq]
      · rw [if_neg hkq, if_neg hkq]
        exact ih

theorem lookupFS_of_not_any (p : String) :
    ∀ fs : FS, fs.any (fun kv => kv.1 = p) = false → lookupFS fs p = none := by
  intro fs
  induction fs with
  | nil => intro _; rfl
  | cons kv rest ih =>
    intro h
    simp only [List.any_cons, Bool.or_eq_false_iff, decide_eq_false_iff_not] at h
    rw [lookupFS, if_neg h.1]
    exact ih (by simp [h.2])

theorem lookupFS_append_single (p : String) (d : FileData) :
    ∀ fs : FS, lookupFS fs p = none → lookupFS (fs ++ [(p, d)]) p = some d := by
  intro fs
  induction fs with
  | nil => intro _; simp [lookupFS]
  | cons kv rest ih =>
    intro h
    rw [lookupFS] at h
    by_cases hk : kv.1 = p
    · rw [if_pos hk] at h
      exact absurd h (by simp)
    · rw [if_neg hk] at h
      rw [List.cons_append, lookupFS, if_neg hk]
      exact ih h

theorem lookupFS_append_single_ne (p q : String) (d : FileData) (h : ¬ q = p) :
    ∀ fs : FS, lookupFS (fs ++ [(p, d)]) q = lookupFS fs q := by
  intro fs
  induction fs with
  | nil =>
    simp only [List.nil_append, lookupFS]
    rw [if_neg (fun hpq : p = q => h hpq.symm)]
  | cons kv rest ih =>
    rw [List.cons_append, lookupFS, lookupFS]
    by_cases hkq : kv.1 = q
    · rw [if_pos hkq, if_pos hkq]
    · rw [if_neg hkq, if_neg hkq]
      exact ih

theorem lookupFS_insertFS_self (fs : FS) (p : String) (d : FileData) :
    lookupFS (insertFS fs p d) p = some d := by
  rw [insertFS]
  by_cases h : fs.any (fun kv => kv.1 = p) = true
  · rw [if_pos h]
    exact lookupFS_map_replace p d fs h
  · rw [if_neg h]
    exact lookupFS_append_single p d fs
      (lookupFS_of_not_any p fs (Bool.eq_false_iff.mpr h))

theorem lookupFS_insertFS_ne (fs : FS) (p q : String) (d : FileData)
    (h : ¬ q = p) :
    lookupFS (insertFS fs p d) q = lookupFS fs q := by
  rw [insertFS]
  by_cases hany : fs.any (fun kv => kv.1 = p) = true
  · rw [if_pos hany]
    exact lookupFS_map_replace_ne p q d h fs
  · rw [if_neg hany]
    exact lookupFS_append_single_ne p q d h fs

theorem lookupFS_eraseFS_self (fs : FS) (p : String) :
    lookupFS (eraseFS fs p) p = none := by
  induction fs with
  | nil => rfl
  | cons kv rest ih =>
    rw [eraseFS, List.filter_cons]
    by_cases hk : kv.1 = p
    · simp only [hk, decide_True, Bool.not_true, if_false]
      exact ih
    · simp only [hk, decide_False, Bool.not_false, if_true, lookupFS, if_neg hk]
      exact ih

theorem lookupFS_eraseFS_ne (fs : FS) (p q : String) (h : ¬ q = p) :
    lookupFS (eraseFS fs p) q = lookupFS fs q := by
  induction fs with
  | nil => rfl
  | cons kv rest ih =>
    rw [eraseFS, List.filter_cons]
    by_cases hk : kv.1 = p
    · simp only [hk, decide_True, Bool.not_true, if_false]
      rw [lookupFS, if_neg (fun hkq : kv.1 = q => h (hk ▸ hkq ▸ rfl))]
      exact ih
    · simp only [hk, decide_False, Bool.not_false, if_true, lookupFS]
      by_cases hkq : kv.1 = q
      · rw [if_pos hkq, if_pos hkq]
      · rw [if_neg hkq, if_neg hkq]
        exact ih

theorem bak_ne (s : String) : ¬ (s ++ ".bak" = s) := by
  intro h
  have hlen : (s ++ ".bak").data.length = s.data.length := by rw [h]
  rw [strData_append, List.length_append] at hlen
  have h4 : (".bak" : String).data.length = 4 := rfl
  omega

/-! ### Rollback on persist failure (claim C1) -/

/-- C1: if serializing and persisting the mutated tag container fails after a
backup was created in this run (no backup pre-existed, the backup copy
succeeded, `tags.save` raised — regardless of what partial content `junk` the
failed save left in the file), then `embed_chapters` restores the original
file from the backup so the MP3 file is byte-identical to its pre-run state,
leaves the backup file present on disk, and re-raises the persist failure to
the caller. -/
theorem save_failure_rolls_back (o : Oracles) (fs : FS) (mp3Path : String)
    (chapters : List (String × Int)) (tags : TagContainer) (dur : Int)
    (audio : List Nat) (junk : FileData)
    (hmp3 : lookupFS fs mp3Path = some (.mp3File tags dur audio))
    (hnobak : lookupFS fs (mp3Path ++ ".bak") = none)
    (hb : o.backupCreateFails = false)
    (hs : o.saveOutcome = some junk) :
    (embedChapters o fs mp3Path chapters).2 = .error .saveErr ∧
    lookupFS (embedChapters o fs mp3Path chapters).1 mp3Path
      = lookupFS fs mp3Path ∧
    lookupFS (embedChapters o fs mp3Path chapters).1 (mp3Path ++ ".bak")
      = some (.mp3File tags dur audio) := by
  have hne : ¬ (mp3Path ++ ".bak" = mp3Path) := bak_ne mp3Path
  have hrest : lookupFS
      (insertFS (insertFS fs (mp3Path ++ ".bak") (.mp3File tags dur audio))
        mp3Path junk) (mp3Path ++ ".bak")
      = some (.mp3File tags dur audio) := by
    rw [lookupFS_insertFS_ne _ _ _ _ hne, lookupFS_insertFS_self]
  have heval : embedChapters o fs mp3Path chapters
      = (insertFS
          (insertFS (insertFS fs (mp3Path ++ ".bak") (.mp3File tags dur audio))
            mp3Path junk)
          mp3Path (.mp3File tags dur audio), .error .saveErr) := by
    rw [embedChapters]
    simp only [hmp3, hnobak, hb, hs, Bool.false_eq_true, if_true, if_false,
      ite_true, ite_false, if_pos rfl, hrest]
  rw [heval]
  refine ⟨rfl, ?_, ?_⟩
  · rw [lookupFS_insertFS_self, hmp3]
  · rw [lookupFS_insertFS_ne _ _ _ _ hne, hrest]

/-- Witness for C1 on a one-file filesystem with a failed save that corrupts
the target before the rollback. -/
theorem save_failure_rolls_back_witness :
    (embedChapters ⟨false, some (.mp3File [] 0 [])⟩
        [("a.mp3", .mp3File [] 300000 [1, 2, 3])] "a.mp3" [("A", 0)]).2
      = .error .saveErr ∧
    lookupFS (embedChapters ⟨false, some (.mp3File [] 0 [])⟩
        [("a.mp3", .mp3File [] 300000 [1, 2, 3])] "a.mp3" [("A", 0)]).1 "a.mp3"
      = lookupFS [("a.mp3", FileData.mp3File [] 300000 [1, 2, 3])] "a.mp3" ∧
    lookupFS (embedChapters ⟨false, some (.mp3File [] 0 [])⟩
        [("a.mp3", .mp3File [] 300000 [1, 2, 3])] "a.mp3" [("A", 0)]).1 "a.mp3.bak"
      = some (.mp3File [] 300000 [1, 2, 3]) :=
  save_failure_rolls_back ⟨false, some (.mp3File [] 0 [])⟩
    [("a.mp3", .mp3File [] 300000 [1, 2, 3])] "a.mp3" [("A", 0)]
    [] 300000 [1, 2, 3] (.mp3File [] 0 [])
    (by decide) (by decide) (by decide) (by decide)

/-! ### Backup-creation failure (claim C6) -/

/-- C6 counterexample: when creating the backup copy fails but the subsequent
save succeeds, `process_files` still reports success and the MP3 file is
persisted with the new tag container — the filesystem error does not mark the
file's processing as failed, contradicting the claim. -/
theorem backup_failure_still_succeeds_counterexample :
    (processFiles ⟨true, none⟩
        [("a.mp3.cue", .cueText ["TRACK 01 AUDIO", "TITLE \"A\"", "INDEX 01 00:00:00"]),
         ("a.mp3", .mp3File [] 300000 [1, 2, 3])] "a.mp3.cue" "a.mp3").2 = true ∧
    lookupFS (processFiles ⟨true, none⟩
        [("a.mp3.cue", .cueText ["TRACK 01 AUDIO", "TITLE \"A\"", "INDEX 01 00:00:00"]),
         ("a.mp3", .mp3File [] 300000 [1, 2, 3])] "a.mp3.cue" "a.mp3").1 "a.mp3"
      = some (.mp3File (embedChaptersTags [] [("A", 0)] 300000) 300000 [1, 2, 3]) :=
  ⟨by decide, by decide⟩

/-- C6 (amended): if creating the backup copy of the MP3 file fails, the
filesystem error is only reported on the console and processing continues
without a backup: the tags are still saved, and when saving succeeds the
per-file result is success, the MP3 file is persisted with the new container,
no backup exists on disk, and the CUE file is deleted. -/
theorem backup_failure_processing_continues (o : Oracles) (fs : FS)
    (cuePath mp3Path : String) (lines : List String) (tags : TagContainer)
    (dur : Int) (audio : List Nat)
    (hcue : lookupFS fs cuePath = some (.cueText lines))
    (hch : (parseLines lines).isEmpty = false)
    (hmp3 : lookupFS fs mp3Path = some (.mp3File tags dur audio))
    (hnobak : lookupFS fs (mp3Path ++ ".bak") = none)
    (hb : o.backupCreateFails = true)
    (hs : o.saveOutcome = none)
    (hne1 : ¬ cuePath = mp3Path) (hne2 : ¬ cuePath = mp3Path ++ ".bak") :
    (processFiles o fs cuePath mp3Path).2 = true ∧
    lookupFS (processFiles o fs cuePath mp3Path).1 mp3Path
      = some (.mp3File (embedChaptersTags tags (parseLines lines) dur) dur audio) ∧
    lookupFS (processFiles o fs cuePath mp3Path).1 (mp3Path ++ ".bak") = none ∧
    lookupFS (processFiles o fs cuePath mp3Path).1 cuePath = none := by
  have hne1' : ¬ mp3Path = cuePath := fun h => hne1 h.symm
  have hne2' : ¬ mp3Path ++ ".bak" = cuePath := fun h => hne2 h.symm
  have hemb : embedChapters o fs mp3Path (parseLines lines)
      = (insertFS fs mp3Path
          (.mp3File (embedChaptersTags tags (parseLines lines) dur) dur audio),
         .ok (mp3Path ++ ".bak")) := by
    rw [embedChapters]
    simp only [hmp3, hnobak, hb, hs, if_true, ite_true]
  have hbak1 : lookupFS (insertFS fs mp3Path
      (.mp3File (embedChaptersTags tags (parseLines lines) dur) dur audio))
      (mp3Path ++ ".bak") = none := by
    rw [lookupFS_insertFS_ne _ _ _ _ (bak_ne mp3Path), hnobak]
  have hcue1 : lookupFS (insertFS fs mp3Path
      (.mp3File (embedChaptersTags tags (parseLines lines) dur) dur audio))
      cuePath = some (.cueText lines) := by
    rw [lookupFS_insertFS_ne _ _ _ _ hne1, hcue]
  have heval : processFiles o fs cuePath mp3Path
      = (eraseFS (insertFS fs mp3Path
          (.mp3File (embedChaptersTags tags (parseLines lines) dur) dur audio))
          cuePath, true) := by
    rw [processFiles]
    simp only [hcue, hch, hemb, hbak1, hcue1, Option.isSome_none, Option.isSome_some,
      Bool.false_eq_true, if_false, if_true, ite_true, ite_false]
  rw [heval]
  refine ⟨rfl, ?_, ?_, ?_⟩
  · rw [lookupFS_eraseFS_ne _ _ _ hne1', lookupFS_insertFS_self]
  · rw [lookupFS_eraseFS_ne _ _ _ hne2', hbak1]
  · rw [lookupFS_eraseFS_self]

/-- Witness for C6 (amended) at the concrete counterexample filesystem. -/
theorem backup_failure_processing_continues_witness :
    (processFiles ⟨true, none⟩
        [("a.mp3.cue", .cueText ["TRACK 01 AUDIO", "TITLE \"A\"", "INDEX 01 00:00:00"]),
         ("a.mp3", .mp3File [] 300000 [1, 2, 3])] "a.mp3.cue" "a.mp3").2 = true ∧
    lookupFS (processFiles ⟨true, none⟩
        [("a.mp3.cue", .cueText ["TRACK 01 AUDIO", "TITLE \"A\"", "INDEX 01 00:00:00"]),
         ("a.mp3", .mp3File [] 300000 [1, 2, 3])] "a.mp3.cue" "a.mp3").1 "a.mp3.cue"
      = none :=
  ⟨(backup_failure_processing_continues ⟨true, none⟩
      [("a.mp3.cue", .cueText ["TRACK 01 AUDIO", "TITLE \"A\"", "INDEX 01 00:00:00"]),
       ("a.mp3", .mp3File [] 300000 [1, 2, 3])] "a.mp3.cue" "a.mp3"
      ["TRACK 01 AUDIO", "TITLE \"A\"", "INDEX 01 00:00:00"] [] 300000 [1, 2, 3]
      (by decide) (by decide) (by decide) (by decide) (by decide) (by decide)
      (by decide) (by decide)).1,
   (backup_failure_processing_continues ⟨true, none⟩
      [("a.mp3.cue", .cueText ["TRACK 01 AUDIO", "TITLE \"A\"", "INDEX 01 00:00:00"]),
       ("a.mp3", .mp3File [] 300000 [1, 2, 3])] "a.mp3.cue" "a.mp3"
      ["TRACK 01 AUDIO", "TITLE \"A\"", "INDEX 01 00:00:00"] [] 300000 [1, 2, 3]
      (by decide) (by decide) (by decide) (by decide) (by decide) (by decide)
      (by decide) (by decide)).2.2.2⟩

/-! ### Cleanup discipline (claim C7) -/

theorem embedChapters_untouched (o : Oracles) (fs : FS) (mp3Path : String)
    (ch : List (String × Int)) (q : String)
    (hq1 : ¬ q = mp3Path) (hq2 : ¬ q = mp3Path ++ ".bak") :
    lookupFS (embedChapters o fs mp3Path ch).1 q = lookupFS fs q := by
  rcases hm : lookupFS fs mp3Path with _ | fd
  · rw [embedChapters]
    simp only [hm]
  · cases fd with
    | cueText lines =>
      rw [embedChapters]
      simp only [hm]
    | mp3File tags dur audio =>
      have hstep : ∀ fs1 : FS, lookupFS fs1 q = lookupFS fs q →
          lookupFS (match o.saveOutcome with
            | none => (insertFS fs1 mp3Path
                (.mp3File (embedChaptersTags tags ch dur) dur audio),
                Except.ok (mp3Path ++ ".bak"))
            | some junk =>
              match lookupFS (insertFS fs1 mp3Path junk) (mp3Path ++ ".bak") with
              | some bak => (insertFS (insertFS fs1 mp3Path junk) mp3Path bak,
                  Except.error EmbedErr.saveErr)
              | none => (insertFS fs1 mp3Path junk,
                  Except.error EmbedErr.saveErr)).1 q
            = lookupFS fs q := by
        intro fs1 hfs1
        rcases o.saveOutcome with _ | junk
        · dsimp only
          rw [lookupFS_insertFS_ne _ _ _ _ hq1, hfs1]
        · dsimp only
          rcases hbk : lookupFS (insertFS fs1 mp3Path junk) (mp3Path ++ ".bak")
            with _ | bak
          · dsimp only
            rw [lookupFS_insertFS_ne _ _ _ _ hq1, hfs1]
          · dsimp only
            rw [lookupFS_insertFS_ne _ _ _ _ hq1,
              lookupFS_insertFS_ne _ _ _ _ hq1, hfs1]
      rw [embedChapters]
      simp only [hm]
      by_cases hbak : lookupFS fs (mp3Path ++ ".bak") = none
      · rw [if_pos hbak]
        cases hbc : o.backupCreateFails
        · rw [if_neg (by simp : ¬ (false = true))]
          exact hstep _ (lookupFS_insertFS_ne _ _ _ _ hq2)
        · rw [if_pos (rfl : true = true)]
          exact hstep fs rfl
      · rw [if_neg hbak]
        exact hstep fs rfl

theorem embedChapters_bak_preserved (o : Oracles) (fs : FS) (mp3Path : String)
    (ch : List (String × Int)) (d : FileData)
    (hbak : lookupFS fs (mp3Path ++ ".bak") = some d) :
    lookupFS (embedChapters o fs mp3Path ch).1 (mp3Path ++ ".bak") = some d := by
  have hne : ¬ (mp3Path ++ ".bak" = mp3Path) := bak_ne mp3Path
  rcases hm : lookupFS fs mp3Path with _ | fd
  · rw [embedChapters]
    simp only [hm]
    exact hbak
  · cases fd with
    | cueText lines =>
      rw [embedChapters]
      simp only [hm]
      exact hbak
    | mp3File tags dur audio =>
      rw [embedChapters]
      simp only [hm]
      rw [if_neg (by rw [hbak]; simp)]
      rcases hso : o.saveOutcome with _ | junk
      · dsimp only
        rw [lookupFS_insertFS_ne _ _ _ _ hne, hbak]
      · dsimp only
        have hbk2 : lookupFS (insertFS fs mp3Path junk) (mp3Path ++ ".bak")
            = some d := by
          rw [lookupFS_insertFS_ne _ _ _ _ hne, hbak]
        simp only [hbk2]
        rw [lookupFS_insertFS_ne _ _ _ _ hne, hbk2]

theorem embedChapters_ok_backupPath (o : Oracles) (fs : FS) (mp3Path : String)
    (ch : List (String × Int)) (fs1 : FS) (bp : String)
    (h : embedChapters o fs mp3Path ch = (fs1, .ok bp)) :
    bp = mp3Path ++ ".bak" := by
  rcases hm : lookupFS fs mp3Path with _ | fd
  · rw [embedChapters] at h
    simp only [hm] at h
    exact absurd (congrArg Prod.snd h) (by simp)
  · cases fd with
    | cueText lines =>
      rw [embedChapters] at h
      simp only [hm] at h
      exact absurd (congrArg Prod.snd h) (by simp)
    | mp3File tags dur audio =>
      rw [embedChapters] at h
      simp only [hm] at h
      rcases hso : o.saveOutcome with _ | junk
      · rw [hso] at h
        dsimp only at h
        have hsnd := congrArg Prod.snd h
        simp only at hsnd
        injection hsnd with h2
        exact h2.symm
      · rw [hso] at h
        dsimp only at h
        split at h
        · exact absurd (congrArg Prod.snd h) (by simp)
        · exact absurd (congrArg Prod.snd h) (by simp)

/-- C7: the backup file and the original CUE file are deleted only after
confirmed success of the whole per-file run: when `process_files` reports
success both are gone from disk, and when it reports failure the CUE file is
untouched and a pre-existing backup file is untouched (the backup is never
deleted on a failing run). -/
theorem cleanup_only_after_success (o : Oracles) (fs : FS)
    (cuePath mp3Path : String)
    (hne1 : ¬ cuePath = mp3Path) (hne2 : ¬ cuePath = mp3Path ++ ".bak") :
    ((processFiles o fs cuePath mp3Path).2 = true →
        lookupFS (processFiles o fs cuePath mp3Path).1 cuePath = none ∧
        lookupFS (processFiles o fs cuePath mp3Path).1 (mp3Path ++ ".bak")
          = none) ∧
    ((processFiles o fs cuePath mp3Path).2 = false →
        lookupFS (processFiles o fs cuePath mp3Path).1 cuePath
          = lookupFS fs cuePath ∧
        ∀ d, lookupFS fs (mp3Path ++ ".bak") = some d →
          lookupFS (processFiles o fs cuePath mp3Path).1 (mp3Path ++ ".bak")
            = some d) := by
  have hne2' : ¬ (mp3Path ++ ".bak" = cuePath) := fun h => hne2 h.symm
  rcases hcue : lookupFS fs cuePath with _ | fd
  · rw [processFiles]
    simp only [hcue]
    exact ⟨fun h => absurd h (by simp), fun _ => ⟨by simp [hcue], fun d hd => hd⟩⟩
  · cases fd with
    | mp3File tags dur audio =>
      rw [processFiles]
      simp only [hcue]
      exact ⟨fun h => absurd h (by simp), fun _ => ⟨by simp [hcue], fun d hd => hd⟩⟩
    | cueText lines =>
      rw [processFiles]
      simp only [hcue]
      by_cases hemp : (parseLines lines).isEmpty = true
      · rw [if_pos hemp]
        exact ⟨fun h => absurd h (by simp), fun _ => ⟨by simp [hcue], fun d hd => hd⟩⟩
      · rw [if_neg hemp]
        rcases hemb : embedChapters o fs mp3Path (parseLines lines)
          with ⟨fs1, res⟩
        cases res with
        | ok bp =>
          have hbp : bp = mp3Path ++ ".bak" :=
            embedChapters_ok_backupPath o fs mp3Path (parseLines lines) fs1 bp hemb
          subst hbp
          dsimp only
          constructor
          · intro _
            constructor
            · by_cases h2 : (lookupFS
                  (if (lookupFS fs1 (mp3Path ++ ".bak")).isSome
                    then eraseFS fs1 (mp3Path ++ ".bak") else fs1) cuePath).isSome
              · rw [if_pos h2, lookupFS_eraseFS_self]
              · rw [if_neg h2]
                rcases hl : lookupFS (if (lookupFS fs1 (mp3Path ++ ".bak")).isSome
                    then eraseFS fs1 (mp3Path ++ ".bak") else fs1) cuePath
                  with _ | d
                · rfl
                · rw [hl] at h2
                  exact absurd (by simp : (some d).isSome = true) h2
            · by_cases h1 : (lookupFS fs1 (mp3Path ++ ".bak")).isSome
              · rw [if_pos h1]
                have hb : lookupFS (eraseFS fs1 (mp3Path ++ ".bak"))
                    (mp3Path ++ ".bak") = none := lookupFS_eraseFS_self _ _
                by_cases h2 : (lookupFS (eraseFS fs1 (mp3Path ++ ".bak")) cuePath).isSome
                · rw [if_pos h2, lookupFS_eraseFS_ne _ _ _ hne2', hb]
                · rw [if_neg h2, hb]
              · rw [if_neg h1]
                have hb : lookupFS fs1 (mp3Path ++ ".bak") = none := by
                  rcases hl : lookupFS fs1 (mp3Path ++ ".bak") with _ | d
                  · rfl
                  · rw [hl] at h1
                    exact absurd (by simp : (some d).isSome = true) h1
                by_cases h2 : (lookupFS fs1 cuePath).isSome
                · rw [if_pos h2, lookupFS_eraseFS_ne _ _ _ hne2', hb]
                · rw [if_neg h2, hb]
          · intro hfalse
            exact absurd hfalse (by simp)
        | error e =>
          constructor
          · intro htrue
            exact absurd htrue (by simp)
          · intro _
            constructor
            · have := embedChapters_untouched o fs mp3Path (parseLines lines)
                cuePath hne1 hne2
              rw [hemb] at this
              exact this.trans hcue
            · intro d hd
              have := embedChapters_bak_preserved o fs mp3Path (parseLines lines)
                d hd
              rw [hemb] at this
              exact this

/-- Witness for C7 on a concrete successful run and a concrete failing run. -/
theorem cleanup_only_after_success_witness :
    lookupFS (processFiles ⟨false, none⟩
        [("a.mp3.cue", .cueText ["TRACK 01 AUDIO", "TITLE \"A\"", "INDEX 01 00:00:00"]),
         ("a.mp3", .mp3File [] 300000 [1, 2, 3])] "a.mp3.cue" "a.mp3").1 "a.mp3.cue"
      = none ∧
    lookupFS (processFiles ⟨false, none⟩
        [("a.mp3.cue", .cueText ["TRACK 01 AUDIO", "TITLE \"A\"", "INDEX 01 00:00:00"]),
         ("a.mp3", .mp3File [] 300000 [1, 2, 3])] "a.mp3.cue" "a.mp3").1 "a.mp3.bak"
      = none ∧
    lookupFS (processFiles ⟨false, some (.mp3File [] 0 [])⟩
        [("a.mp3.cue", .cueText ["TRACK 01 AUDIO", "TITLE \"A\"", "INDEX 01 00:00:00"]),
         ("a.mp3", .mp3File [] 300000 [1, 2, 3]),
         ("a.mp3.bak", .mp3File [] 7 [9])] "a.mp3.cue" "a.mp3").1 "a.mp3.cue"
      = some (.cueText ["TRACK 01 AUDIO", "TITLE \"A\"", "INDEX 01 00:00:00"]) ∧
    lookupFS (processFiles ⟨false, some (.mp3File [] 0 [])⟩
        [("a.mp3.cue", .cueText ["TRACK 01 AUDIO", "TITLE \"A\"", "INDEX 01 00:00:00"]),
         ("a.mp3", .mp3File [] 300000 [1, 2, 3]),
         ("a.mp3.bak", .mp3File [] 7 [9])] "a.mp3.cue" "a.mp3").1 "a.mp3.bak"
      = some (.mp3File [] 7 [9]) :=
  ⟨((cleanup_only_after_success ⟨false, none⟩
      [("a.mp3.cue", .cueText ["TRACK 01 AUDIO", "TITLE \"A\"", "INDEX 01 00:00:00"]),
       ("a.mp3", .mp3File [] 300000 [1, 2, 3])] "a.mp3.cue" "a.mp3"
      (by decide) (by decide)).1 (by decide)).1,
   ((cleanup_only_after_success ⟨false, none⟩
      [("a.mp3.cue", .cueText ["TRACK 01 AUDIO", "TITLE \"A\"", "INDEX 01 00:00:00"]),
       ("a.mp3", .mp3File [] 300000 [1, 2, 3])] "a.mp3.cue" "a.mp3"
      (by decide) (by decide)).1 (by decide)).2,
   ((cleanup_only_after_success ⟨false, some (.mp3File [] 0 [])⟩
      [("a.mp3.cue", .cueText ["TRACK 01 AUDIO", "TITLE \"A\"", "INDEX 01 00:00:00"]),
       ("a.mp3", .mp3File [] 300000 [1, 2, 3]),
       ("a.mp3.bak", .mp3File [] 7 [9])] "a.mp3.cue" "a.mp3"
      (by decide) (by decide)).2 (by decide)).1,
   ((cleanup_only_after_success ⟨false, some (.mp3File [] 0 [])⟩
      [("a.mp3.cue", .cueText ["TRACK 01 AUDIO", "TITLE \"A\"", "INDEX 01 00:00:00"]),
       ("a.mp3", .mp3File [] 300000 [1, 2, 3]),
       ("a.mp3.bak", .mp3File [] 7 [9])] "a.mp3.cue" "a.mp3"
      (by decide) (by decide)).2 (by decide)).2 (.mp3File [] 7 [9]) (by decide)⟩

/-! ### String-primitive lemmas for the parsing theorem (claim C4) -/

theorem dropWhile_eq_self_of_head (p : Char → Bool) (l : List Char)
    (h : ∀ x, l.head? = some x → p x = false) : l.dropWhile p = l := by
  cases l with
  | nil => rfl
  | cons c cs =>
    rw [List.dropWhile_cons, if_neg]
    rw [h c rfl]
    simp

theorem trimL_eq_self (l : List Char)
    (h1 : ∀ x, l.head? = some x → x.isWhitespace = false)
    (h2 : ∀ x, l.getLast? = some x → x.isWhitespace = false) : trimL l = l := by
  rw [trimL, dropWhile_eq_self_of_head _ l h1,
    dropWhile_eq_self_of_head _ l.reverse
      (fun x hx => h2 x ((List.head?_reverse l) ▸ hx)),
    List.reverse_reverse]

theorem upperL_append (xs ys : List Char) :
    upperL (xs ++ ys) = upperL xs ++ upperL ys := by
  simp [upperL]

theorem startsL_append_of_length (pat : List Char) :
    ∀ (xs rest : List Char), pat.length ≤ xs.length →
      startsL pat (xs ++ rest) = startsL pat xs := by
  induction pat with
  | nil => intro xs rest _; rfl
  | cons p ps ih =>
    intro xs rest h
    cases xs with
    | nil => simp at h
    | cons c cs =>
      rw [List.cons_append]
      show (decide (p = c) && startsL ps (cs ++ rest))
        = (decide (p = c) && startsL ps cs)
      rw [ih cs rest (by simpa using h)]

theorem containsL_of_startsL (pat l : List Char) (h : startsL pat l = true) :
    containsL pat l = true := by
  cases l with
  | nil => exact h
  | cons c cs => simp [containsL, h]

theorem containsL_append_right (pat xs ys : List Char)
    (h : containsL pat ys = true) : containsL pat (xs ++ ys) = true := by
  induction xs with
  | nil => exact h
  | cons c cs ih =>
    rw [List.cons_append]
    show (startsL pat (c :: (cs ++ ys)) || containsL pat (cs ++ ys)) = true
    rw [ih]
    simp

theorem splitOnChar_ne_nil (sep : Char) : ∀ l, splitOnChar sep l ≠ [] := by
  intro l
  cases l with
  | nil => simp [splitOnChar]
  | cons c cs =>
    rw [splitOnChar]
    rcases h : splitOnChar sep cs with _ | ⟨h1, t1⟩
    · simp
    · by_cases hc : c = sep <;> simp [hc]

theorem splitOnChar_cons_sep (sep : Char) (l : List Char) :
    splitOnChar sep (sep :: l) = [] :: splitOnChar sep l := by
  rw [splitOnChar]
  rcases h : splitOnChar sep l with _ | ⟨h1, t1⟩
  · exact absurd h (splitOnChar_ne_nil sep l)
  · simp

theorem splitOnChar_not_mem (sep : Char) :
    ∀ l : List Char, (∀ c ∈ l, ¬ c = sep) → splitOnChar sep l = [l] := by
  intro l
  induction l with
  | nil => intro _; rfl
  | cons c cs ih =>
    intro h
    rw [splitOnChar, ih (fun x hx => h x (List.mem_cons_of_mem c hx))]
    dsimp only
    rw [if_neg (h c (List.mem_cons_self c cs))]

theorem splitOnChar_append (sep : Char) :
    ∀ (xs ys : List Char), (∀ c ∈ xs, ¬ c = sep) →
      splitOnChar sep (xs ++ ys)
        = (xs ++ (splitOnChar sep ys).headI) :: (splitOnChar sep ys).tail := by
  intro xs
  induction xs with
  | nil =>
    intro ys _
    simp only [List.nil_append]
    rcases h : splitOnChar sep ys with _ | ⟨h1, t1⟩
    · exact absurd h (splitOnChar_ne_nil sep ys)
    · simp
  | cons c cs ih =>
    intro ys h
    rw [List.cons_append, splitOnChar,
      ih ys (fun x hx => h x (List.mem_cons_of_mem c hx))]
    dsimp only
    rw [if_neg (h c (List.mem_cons_self c cs))]
    simp

theorem splitWhen_ne_nil (p : Char → Bool) : ∀ l, splitWhen p l ≠ [] := by
  intro l
  cases l with
  | nil => simp [splitWhen]
  | cons c cs =>
    rw [splitWhen]
    rcases h : splitWhen p cs with _ | ⟨h1, t1⟩
    · simp
    · by_cases hc : p c = true <;> simp [hc]

theorem splitWhen_no_p (p : Char → Bool) :
    ∀ l : List Char, (∀ c ∈ l, p c = false) → splitWhen p l = [l] := by
  intro l
  induction l with
  | nil => intro _; rfl
  | cons c cs ih =>
    intro h
    rw [splitWhen, ih (fun x hx => h x (List.mem_cons_of_mem c hx))]
    dsimp only
    rw [if_neg (by rw [h c (List.mem_cons_self c cs)]; simp)]

theorem splitWhen_last (p : Char → Bool) (sep : Char) (hsep : p sep = true)
    (tok : List Char) (htok : ∀ c ∈ tok, p c = false) :
    ∀ xs : List Char, 2 ≤ (splitWhen p (xs ++ sep :: tok)).length ∧
      (splitWhen p (xs ++ sep :: tok)).getLast? = some tok := by
  intro xs
  induction xs with
  | nil =>
    simp only [List.nil_append]
    rw [splitWhen, splitWhen_no_p p tok htok]
    dsimp only
    rw [if_pos (by rw [hsep] : p sep = true)]
    simp
  | cons c cs ih =>
    rw [List.cons_append, splitWhen]
    rcases h : splitWhen p (cs ++ sep :: tok) with _ | ⟨h1, t1⟩
    · exact absurd h (splitWhen_ne_nil p _)
    · rw [h] at ih
      dsimp only
      rcases t1 with _ | ⟨t2, ts⟩
      · simp at ih
      · by_cases hc : p c = true
        · rw [if_pos hc]
          refine ⟨by simp, ?_⟩
          rw [List.getLast?_cons_cons]
          exact ih.2
        · rw [if_neg hc]
          refine ⟨by simp, ?_⟩
          rw [List.getLast?_cons_cons]
          rw [List.getLast?_cons_cons] at ih
          exact ih.2

theorem filter_getLast_of_getLast {α : Type} (q : α → Bool) :
    ∀ (r : List α) (a : α), r.getLast? = some a → q a = true →
      (r.filter q).getLast? = some a := by
  intro r
  induction r with
  | nil => intro a ha _; simp at ha
  | cons x xs ih =>
    intro a ha hq
    cases xs with
    | nil =>
      simp only [List.getLast?_singleton, Option.some.injEq] at ha
      subst ha
      simp [List.filter_cons, hq]
    | cons y ys =>
      rw [List.getLast?_cons_cons] at ha
      have hrec := ih a ha hq
      rw [List.filter_cons]
      by_cases hx : q x = true
      · rw [if_pos hx]
        have hne : (y :: ys).filter q ≠ [] := by
          intro hnil
          rw [hnil] at hrec
          simp at hrec
        rcases hf : (y :: ys).filter q with _ | ⟨z, zs⟩
        · exact absurd hf hne
        · rw [hf] at hrec
          rw [List.getLast?_cons_cons]
          exact hrec
      · rw [if_neg hx]
        exact hrec

theorem pySplitWs_last (xs tok : List Char)
    (htok : ∀ c ∈ tok, c.isWhitespace = false) (hne : ¬ tok = []) :
    (pySplitWs (xs ++ ' ' :: tok)).getLast? = some tok := by
  have h := splitWhen_last Char.isWhitespace ' ' rfl tok htok xs
  rw [pySplitWs]
  exact filter_getLast_of_getLast _ _ tok h.2 (by simp [hne])

/-! ### Digit-character facts for the parsing theorem (claim C4) -/

theorem natChars_mem_digitChar :
    ∀ n c, c ∈ natChars n → ∃ d, d < 10 ∧ c = Nat.digitChar d := by
  intro n
  induction n using Nat.strong_induction_on with
  | _ n ih =>
    intro c hc
    by_cases h : n < 10
    · rw [natChars_lt10 n h] at hc
      simp only [List.mem_singleton] at hc
      exact ⟨n, h, hc⟩
    · rw [natChars_ge10 n (by omega)] at hc
      rcases List.mem_append.1 hc with hm | hm
      · exact ih (n / 10) (by omega) c hm
      · simp only [List.mem_singleton] at hm
        exact ⟨n % 10, by omega, hm⟩

theorem digitChar_facts (d : Nat) (h : d < 10) :
    (Nat.digitChar d).isDigit = true ∧ (Nat.digitChar d).isWhitespace = false ∧
    ¬ Nat.digitChar d = ':' ∧ ¬ Nat.digitChar d = '-' ∧
    ¬ Nat.digitChar d = '+' ∧ ¬ Nat.digitChar d = '"' := by
  interval_cases d <;> exact ⟨rfl, rfl, by decide, by decide, by decide, by decide⟩

theorem natChars_not_ws (n : Nat) :
    ∀ c ∈ natChars n, c.isWhitespace = false := by
  intro c hc
  obtain ⟨d, hd, rfl⟩ := natChars_mem_digitChar n c hc
  exact (digitChar_facts d hd).2.1

theorem natChars_not_colon (n : Nat) :
    ∀ c ∈ natChars n, ¬ c = ':' := by
  intro c hc
  obtain ⟨d, hd, rfl⟩ := natChars_mem_digitChar n c hc
  exact (digitChar_facts d hd).2.2.1

theorem digitsAux_digits :
    ∀ (l : List Char), (∀ c ∈ l, c.isDigit = true) →
      ∀ acc, digitsAux acc l
        = some (l.foldl (fun a c => a * 10 + (c.toNat - 48)) acc) := by
  intro l
  induction l with
  | nil => intro _ acc; rfl
  | cons c cs ih =>
    intro h acc
    rw [digitsAux, if_pos (h c (List.mem_cons_self c cs)), List.foldl_cons]
    exact ih (fun x hx => h x (List.mem_cons_of_mem c hx)) _

theorem pyIntChars_natChars (k : Nat) :
    pyIntChars (natChars k) = some (k : Int) := by
  have htrim : trimL (natChars k) = natChars k := by
    apply trimL_eq_self
    · intro x hx
      apply natChars_not_ws k x
      rcases hh : natChars k with _ | ⟨c, cs⟩
      · rw [hh] at hx; simp at hx
      · rw [hh] at hx
        simp only [List.head?_cons, Option.some.injEq] at hx
        rw [← hx]
        exact List.mem_cons_self c cs
    · intro x hx
      apply natChars_not_ws k x
      obtain ⟨hne2, hxe⟩ := List.mem_getLast?_eq_getLast (Option.mem_def.2 hx)
      rw [hxe]
      exact List.getLast_mem hne2
  have hdig : ∀ c ∈ natChars k, c.isDigit = true := by
    intro c hc
    obtain ⟨d, hd, rfl⟩ := natChars_mem_digitChar k c hc
    exact (digitChar_facts d hd).1
  rcases hh : natChars k with _ | ⟨c, cs⟩
  · exact absurd hh (natChars_ne_nil k)
  · have hcmem : c ∈ natChars k := by rw [hh]; exact List.mem_cons_self c cs
    obtain ⟨d, hd, hcd⟩ := natChars_mem_digitChar k c hcmem
    rw [pyIntChars, ← hh, htrim, hh]
    split
    · rename_i ds heq
      rw [List.cons.injEq] at heq
      rw [hcd] at heq
      exact absurd heq.1 (digitChar_facts d hd).2.2.2.1
    · rename_i ds heq
      rw [List.cons.injEq] at heq
      rw [hcd] at heq
      exact absurd heq.1 (digitChar_facts d hd).2.2.2.2.1
    · rename_i heq
      exact absurd heq (by simp)
    · rw [← hh, digitsAux_digits (natChars k) hdig 0]
      have hv := valOf_natChars k
      rw [valOf] at hv
      simp [hv]

/-! ### Rendering well-formed CUE blocks and the parsing theorem (claim C4) -/

/-- A well-formed CUE TRACK block as C4 quantifies over: a quoted title and an
`INDEX 01` timecode `m:s:f`. -/
structure CueBlock where
  title : String
  m : Nat
  s : Nat
  f : Nat

/-- The TRACK directive line of a rendered block. -/
def trackLine : String := "TRACK 01 AUDIO"

/-- The line `TITLE "<title>"`. -/
def renderTitleLine (title : String) : String :=
  ⟨'T' :: 'I' :: 'T' :: 'L' :: 'E' :: ' ' :: '"' :: (title.data ++ ['"'])⟩

/-- The line `INDEX 01 <m>:<s>:<f>` with decimal timecode fields. -/
def renderIndexLine (m s f : Nat) : String :=
  ⟨'I' :: 'N' :: 'D' :: 'E' :: 'X' :: ' ' :: '0' :: '1' :: ' ' ::
    (natChars m ++ ':' :: (natChars s ++ ':' :: natChars f))⟩

/-- The three lines of one TRACK block. -/
def renderBlock (b : CueBlock) : List String :=
  [trackLine, renderTitleLine b.title, renderIndexLine b.m b.s b.f]

/-- A CUE text made of well-formed TRACK blocks, as a list of lines. -/
def renderCue (bs : List CueBlock) : List String :=
  (bs.map renderBlock).flatten

theorem stepLine_trackLine (st : ParseState) :
    stepLine st trackLine = ⟨flushPending st, none, none⟩ := rfl

theorem natChars_getLast?_not_ws (n : Nat) :
    ∀ x, (natChars n).getLast? = some x → x.isWhitespace = false := by
  intro x hx
  apply natChars_not_ws n x
  obtain ⟨hne2, hxe⟩ := List.mem_getLast?_eq_getLast (Option.mem_def.2 hx)
  rw [hxe]
  exact List.getLast_mem hne2

theorem stepLine_titleLine (st : ParseState) (t : String)
    (hq : ∀ c ∈ t.data, ¬ c = '"') :
    stepLine st (renderTitleLine t) = { st with current_title := some t } := by
  have hlast : (renderTitleLine t).data.getLast? = some '"' := by
    show (['T', 'I', 'T', 'L', 'E', ' ', '"'] ++ (t.data ++ ['"'])).getLast?
      = some '"'
    rw [List.getLast?_append_of_ne_nil _ (by simp),
      List.getLast?_append_of_ne_nil _ (by simp : (['"'] : List Char) ≠ [])]
    rfl
  have htrim : trimL (renderTitleLine t).data = (renderTitleLine t).data := by
    apply trimL_eq_self
    · intro x hx
      have : x = 'T' := by
        simp only [renderTitleLine, List.head?_cons, Option.some.injEq] at hx
        exact hx.symm
      rw [this]
      rfl
    · intro x hx
      rw [hlast] at hx
      injection hx with h
      rw [← h]
      rfl
  have c1 : startsL "TRACK".data (upperL (renderTitleLine t).data) = false := by
    show startsL "TRACK".data
      (upperL (['T', 'I', 'T', 'L', 'E', ' ', '"'] ++ (t.data ++ ['"']))) = false
    rw [upperL_append, startsL_append_of_length _ _ _ (by decide)]
    decide
  have c2 : startsL "TITLE".data (upperL (renderTitleLine t).data) = true := by
    show startsL "TITLE".data
      (upperL (['T', 'I', 'T', 'L', 'E', ' ', '"'] ++ (t.data ++ ['"']))) = true
    rw [upperL_append, startsL_append_of_length _ _ _ (by decide)]
    decide
  have c3 : containsL "\"".data (renderTitleLine t).data = true := by
    show containsL "\"".data
      (['T', 'I', 'T', 'L', 'E', ' '] ++ ('"' :: (t.data ++ ['"']))) = true
    apply containsL_append_right
    apply containsL_of_startsL
    simp [startsL]
  have c4 : splitOnChar '"' (renderTitleLine t).data
      = ['T', 'I', 'T', 'L', 'E', ' '] :: t.data :: [[]] := by
    show splitOnChar '"'
      (['T', 'I', 'T', 'L', 'E', ' '] ++ ('"' :: (t.data ++ ['"']))) = _
    rw [splitOnChar_append '"' _ _ (by decide), splitOnChar_cons_sep,
      splitOnChar_append '"' t.data ['"'] hq, splitOnChar_cons_sep]
    simp [splitOnChar]
  simp only [stepLine, htrim, c1, c2, c3, c4, Bool.false_eq_true, if_false,
    if_true, ite_true, ite_false]

theorem stepLine_indexLine (st : ParseState) (m s f : Nat) :
    stepLine st (renderIndexLine m s f)
      = { st with current_time := some (cueTimeToMs m s f) } := by
  have htokne : ¬ (natChars m ++ ':' :: (natChars s ++ ':' :: natChars f)
      = ([] : List Char)) := by
    intro h
    exact natChars_ne_nil m (List.append_eq_nil.1 h).1
  have htokws : ∀ c ∈ natChars m ++ ':' :: (natChars s ++ ':' :: natChars f),
      c.isWhitespace = false := by
    intro c hc
    rcases List.mem_append.1 hc with hm | hm
    · exact natChars_not_ws m c hm
    · rcases List.mem_cons.1 hm with rfl | hm
      · rfl
      · rcases List.mem_append.1 hm with hm | hm
        · exact natChars_not_ws s c hm
        · rcases List.mem_cons.1 hm with rfl | hm
          · rfl
          · exact natChars_not_ws f c hm
  have htrim : trimL (renderIndexLine m s f).data
      = (renderIndexLine m s f).data := by
    apply trimL_eq_self
    · intro x hx
      have : x = 'I' := by
        simp only [renderIndexLine, List.head?_cons, Option.some.injEq] at hx
        exact hx.symm
      rw [this]
      rfl
    · intro x hx
      apply natChars_getLast?_not_ws f x
      rw [← hx]
      show _ = (['I', 'N', 'D', 'E', 'X', ' ', '0', '1', ' ']
          ++ (natChars m ++ ':' :: (natChars s ++ ':' :: natChars f))).getLast?
      rw [List.getLast?_append_of_ne_nil _ htokne,
        List.getLast?_append_of_ne_nil _
          (by simp : (':' :: (natChars s ++ ':' :: natChars f)) ≠ []),
        show (':' :: (natChars s ++ ':' :: natChars f))
          = [':'] ++ (natChars s ++ ':' :: natChars f) from rfl,
        List.getLast?_append_of_ne_nil _ (by simp),
        List.getLast?_append_of_ne_nil _ (by simp : (':' :: natChars f) ≠ []),
        show (':' :: natChars f) = [':'] ++ natChars f from rfl,
        List.getLast?_append_of_ne_nil _ (natChars_ne_nil f)]
  have c1 : startsL "TRACK".data (upperL (renderIndexLine m s f).data)
      = false := by
    show startsL "TRACK".data (upperL (['I', 'N', 'D', 'E', 'X', ' ', '0', '1', ' ']
      ++ (natChars m ++ ':' :: (natChars s ++ ':' :: natChars f)))) = false
    rw [upperL_append, startsL_append_of_length _ _ _ (by decide)]
    decide
  have c2 : startsL "TITLE".data (upperL (renderIndexLine m s f).data)
      = false := by
    show startsL "TITLE".data (upperL (['I', 'N', 'D', 'E', 'X', ' ', '0', '1', ' ']
      ++ (natChars m ++ ':' :: (natChars s ++ ':' :: natChars f)))) = false
    rw [upperL_append, startsL_append_of_length _ _ _ (by decide)]
    decide
  have c3 : containsL "INDEX 01".data (upperL (renderIndexLine m s f).data)
      = true := by
    show containsL "INDEX 01".data
      (upperL (['I', 'N', 'D', 'E', 'X', ' ', '0', '1', ' ']
        ++ (natChars m ++ ':' :: (natChars s ++ ':' :: natChars f)))) = true
    apply containsL_of_startsL
    rw [upperL_append, startsL_append_of_length _ _ _ (by decide)]
    decide
  have hsplitTok : splitOnChar ':'
      (natChars m ++ ':' :: (natChars s ++ ':' :: natChars f))
      = [natChars m, natChars s, natChars f] := by
    rw [splitOnChar_append ':' (natChars m) _ (natChars_not_colon m),
      splitOnChar_cons_sep,
      splitOnChar_append ':' (natChars s) _ (natChars_not_colon s),
      splitOnChar_cons_sep,
      splitOnChar_not_mem ':' (natChars f) (natChars_not_colon f)]
    simp
  have hlastTok : (pySplitWs (renderIndexLine m s f).data).getLast?
      = some (natChars m ++ ':' :: (natChars s ++ ':' :: natChars f)) := by
    show (pySplitWs (['I', 'N', 'D', 'E', 'X', ' ', '0', '1']
      ++ ' ' :: (natChars m ++ ':' :: (natChars s ++ ':' :: natChars f)))).getLast?
      = _
    exact pySplitWs_last _ _ htokws htokne
  have hp : parseTimeToken (renderIndexLine m s f).data
      = some (cueTimeToMs m s f) := by
    rw [parseTimeToken, hlastTok]
    dsimp only
    rw [hsplitTok]
    dsimp only
    rw [pyIntChars_natChars m, pyIntChars_natChars s, pyIntChars_natChars f]
  simp only [stepLine, htrim, c1, c2, c3, hp, Bool.false_eq_true, if_false,
    if_true, ite_true, ite_false]

theorem foldl_stepLine_block (st : ParseState) (b : CueBlock)
    (hq : ∀ c ∈ b.title.data, ¬ c = '"') :
    (renderBlock b).foldl stepLine st
      = ⟨flushPending st, some b.title, some (cueTimeToMs b.m b.s b.f)⟩ := by
  rw [renderBlock]
  simp only [List.foldl_cons, List.foldl_nil]
  rw [stepLine_trackLine, stepLine_titleLine _ _ hq, stepLine_indexLine]

theorem foldl_stepLine_renderCue (bs : List CueBlock) :
    (∀ b ∈ bs, ∀ c ∈ b.title.data, ¬ c = '"') →
    ∀ st : ParseState,
      flushPending ((renderCue bs).foldl stepLine st)
        = flushPending st
            ++ bs.map (fun b => (b.title, cueTimeToMs b.m b.s b.f)) := by
  induction bs with
  | nil => intro _ st; simp [renderCue]
  | cons b bs ih =>
    intro hgood st
    rw [renderCue, List.map_cons, List.flatten_cons, List.foldl_append,
      foldl_stepLine_block st b (hgood b (List.mem_cons_self b bs))]
    rw [show renderCue bs = (bs.map renderBlock).flatten from rfl] at ih
    rw [ih (fun x hx => hgood x (List.mem_cons_of_mem b hx))
      ⟨flushPending st, some b.title, some (cueTimeToMs b.m b.s b.f)⟩]
    rw [show flushPending ⟨flushPending st, some b.title,
        some (cueTimeToMs b.m b.s b.f)⟩
      = flushPending st ++ [(b.title, cueTimeToMs b.m b.s b.f)] from rfl]
    rw [List.map_cons, List.append_assoc]
    rfl

/-- C4: for every CUE text consisting of N TRACK blocks, each with a quoted
TITLE line (title free of quote characters) and a well-formed `INDEX 01`
`m:s:f` timecode line, parsing yields exactly N chapter seeds, one per block
and in file order: the seed list is exactly the blocks' (title, time) pairs. -/
theorem parse_yields_all_blocks_in_order (bs : List CueBlock)
    (hgood : ∀ b ∈ bs, ∀ c ∈ b.title.data, ¬ c = '"') :
    parseLines (renderCue bs)
      = bs.map (fun b => (b.title, cueTimeToMs b.m b.s b.f)) := by
  rw [parseLines, foldl_stepLine_renderCue bs hgood ⟨[], none, none⟩]
  rfl

/-- Witness for C4 at a concrete two-block CUE text. -/
theorem parse_yields_all_blocks_in_order_witness :
    parseLines (renderCue [⟨"Intro", 0, 0, 0⟩, ⟨"Main", 3, 0, 0⟩])
      = [("Intro", cueTimeToMs 0 0 0), ("Main", cueTimeToMs 3 0 0)] :=
  parse_yields_all_blocks_in_order [⟨"Intro", 0, 0, 0⟩, ⟨"Main", 3, 0, 0⟩]
    (by decide)

end Cue2ID3
